import Mathlib

/-!
Verification of the agent-smith backend against its specification.

Python strings are modelled as `List Char` (a Python `str` is a sequence of
unicode code points).  The relevant pieces of the backend are embedded as
executable Lean functions:

* `normalize_path` embeds `normalize_path` from
  `backend/api/services/skill_file_ops_paths.py` (the Path Sandbox
  normalizer), including the `pathlib.PurePosixPath.parts` semantics it
  relies on (root components `/` and `//`, empty and `.` components
  dropped).
* `normalize_result` and `execute_tool` embed
  `ToolMapper._normalize_result` / `ToolMapper.execute_tool` from
  `backend/api/services/tool_mapper.py`; Python values are modelled by the
  inductive type `PyVal`, and the external effects of a dispatch (path
  validator, argument builder, skill executor) are supplied as explicit
  oracle data.
* `execute_command` and its helpers embed `MemoryToolHandler` from
  `backend/api/services/memory_tool_handler.py`; the database is modelled
  as the list of memory records of one user, in insertion order.
-/

/-- Shorthand turning a Lean string literal into the `List Char` it denotes. -/
def S (s : String) : List Char := s.data

instance {α β : Type} [DecidableEq α] [DecidableEq β] : DecidableEq (Except α β) :=
  fun a b =>
    match a, b with
    | .ok x, .ok y =>
      if h : x = y then .isTrue (h ▸ rfl) else .isFalse (fun he => h (Except.ok.inj he))
    | .error x, .error y =>
      if h : x = y then .isTrue (h ▸ rfl) else .isFalse (fun he => h (Except.error.inj he))
    | .ok _, .error _ => .isFalse (fun he => Except.noConfusion he)
    | .error _, .ok _ => .isFalse (fun he => Except.noConfusion he)

/-- ASCII whitespace, the core of what Python `str.strip()` removes
(Python additionally strips rarer unicode whitespace code points, which
play no role in the claims considered here). -/
def isWs (c : Char) : Bool :=
  c = ' ' || c = '\t' || c = '\n' || c = '\r' || c = '\x0b' || c = '\x0c'

/-- Either slash character, the separators of the claim about `..` segments. -/
def isSlash (c : Char) : Bool :=
  c = '/' || c = '\\'

/-- Forward slash only, the separator after backslash replacement. -/
def isFslash (c : Char) : Bool :=
  c = '/'

/-- Model of `str.replace("\\", "/")` at the character level. -/
def slashify (c : Char) : Char :=
  if c = '\\' then '/' else c

/-- Model of Python `str.strip()` over the `isWs` whitespace set. -/
def pyStrip (l : List Char) : List Char :=
  (l.dropWhile isWs).rdropWhile isWs

/-- Prepend a character to the first chunk of a split result. -/
def consHead (c : Char) : List (List Char) → List (List Char)
  | [] => [[c]]
  | s :: ss => (c :: s) :: ss

/-- Split a character list at every delimiter characterised by `p`,
keeping empty chunks (the splitting underlying both the claim about `..`
segments and `pathlib` component extraction). -/
def splitAny (p : Char → Bool) : List Char → List (List Char)
  | [] => [[]]
  | c :: cs => if p c then [] :: splitAny p cs else consHead c (splitAny p cs)

/-- A chunk survives `pathlib` component filtering (and the identical
filter in `normalize_path`) when it is neither empty nor `"."`. -/
def goodSeg (s : List Char) : Bool :=
  !(s.isEmpty || s == ['.'])

/-- Chunks of a split that survive the empty/dot filter. -/
def fsplit (p : Char → Bool) (l : List Char) : List (List Char) :=
  (splitAny p l).filter goodSeg

/-- The segments of a raw path in the sense of claim C1: split on both
slash styles, drop empty and `"."` segments. -/
def claimSegs (raw : List Char) : List (List Char) :=
  fsplit isSlash raw

/-- The root component `PurePosixPath` extracts from a path beginning
with `/`: exactly two leading slashes give root `//`, one or three and
more give `/`. -/
def pyPathRoot (l : List Char) : List Char :=
  if (S "//").isPrefixOf l && !(S "///").isPrefixOf l then S "//" else S "/"

/-- Model of `pathlib.PurePosixPath(l).parts`: an optional root component
followed by the non-empty, non-`.` components. -/
def pyParts (l : List Char) : List (List Char) :=
  if l.head? = some '/' then pyPathRoot l :: fsplit isFslash l
  else fsplit isFslash l

/-- The string `normalize_path` hands to `PurePosixPath`: the raw path
stripped, backslashes replaced, and one leading slash removed. -/
def normP2 (raw : List Char) : List Char :=
  let path1 := (pyStrip raw).map slashify
  if path1.head? = some '/' then path1.tail else path1

/-- The filtered component list `normalize_path` computes for a raw path:
take the `PurePosixPath` parts of `normP2` and filter out empty and `"."`
parts. -/
def normParts (raw : List Char) : List (List Char) :=
  (pyParts (normP2 raw)).filter goodSeg

/-- Model of Python `sep.join(parts)` for a single-character separator. -/
def joinSep (d : Char) : List (List Char) → List Char
  | [] => []
  | [a] => a
  | a :: b :: t => a ++ d :: joinSep d (b :: t)

/-- Embedding of `normalize_path` from `skill_file_ops_paths.py`.
`Except.error` models a raised `ValueError` carrying its message. -/
def normalize_path (raw : List Char) (allow_root : Bool := true) :
    Except (List Char) (List Char) :=
  let path0 := pyStrip raw
  if path0 = [] || path0 = ['.'] || path0 = ['/'] then
    if allow_root then .ok [] else .error (S "Path cannot be empty")
  else
    let parts := normParts raw
    if parts.any (fun s => s == S "..") then
      .error (S "Path traversal not allowed: " ++ raw)
    else
      let normalized := joinSep '/' parts
      if normalized.isEmpty && !allow_root then .error (S "Path cannot be empty")
      else .ok normalized

example : normalize_path (S "documents/../../etc/passwd") true =
    .error (S "Path traversal not allowed: documents/../../etc/passwd") := by decide

example : normalize_path (S "a\\b//c/./") true = .ok (S "a/b/c") := by decide

example : normalize_path (S "/a/b") true = .ok (S "a/b") := by decide

example : normalize_path (S "//") true = .ok (S "/") := by decide

example : normalize_path (S "//a") true = .ok (S "//a") := by decide

example : normalize_path (S "a /") true = .ok (S "a ") := by decide

example : normalize_path (S "") false = .error (S "Path cannot be empty") := by decide

example : normalize_path (S "\\") true = .ok (S "") := by decide

/-! ### Facts about `splitAny` -/

theorem consHead_ne_nil (c : Char) (ss : List (List Char)) : consHead c ss ≠ [] := by
  cases ss <;> simp [consHead]

theorem splitAny_ne_nil (p : Char → Bool) (l : List Char) : splitAny p l ≠ [] := by
  induction l with
  | nil => simp [splitAny]
  | cons c cs _ =>
    cases h : p c with
    | true => simp [splitAny, h]
    | false =>
      simp only [splitAny, h]
      exact consHead_ne_nil _ _

theorem consHead_map (f : Char → Char) (c : Char) (ss : List (List Char)) :
    consHead (f c) (ss.map (List.map f)) = (consHead c ss).map (List.map f) := by
  cases ss <;> simp [consHead]

theorem splitAny_map (p q : Char → Bool) (f : Char → Char)
    (hpq : ∀ c, q c = p (f c)) (l : List Char) :
    splitAny p (l.map f) = (splitAny q l).map (List.map f) := by
  induction l with
  | nil => simp [splitAny]
  | cons c cs ih =>
    cases h : q c with
    | true =>
      have h' : p (f c) = true := by rw [← hpq]; exact h
      simp [splitAny, h, h', ih]
    | false =>
      have h' : p (f c) = false := by rw [← hpq]; exact h
      simp only [List.map_cons, splitAny, h, h', Bool.false_eq_true, if_false, ih]
      exact consHead_map f c (splitAny q cs)

theorem mem_splitAny_not_delim (p : Char → Bool) (l : List Char) :
    ∀ s ∈ splitAny p l, ∀ c ∈ s, p c = false := by
  induction l with
  | nil =>
    intro s hs c hc
    simp [splitAny] at hs
    subst hs
    simp at hc
  | cons c cs ih =>
    intro s hs d hd
    cases h : p c with
    | true =>
      simp [splitAny, h] at hs
      rcases hs with rfl | hs
      · simp at hd
      · exact ih s hs d hd
    | false =>
      simp only [splitAny, h, Bool.false_eq_true, if_false] at hs
      obtain ⟨a, as, hA⟩ := List.exists_cons_of_ne_nil (splitAny_ne_nil p cs)
      rw [hA] at hs
      simp only [consHead, List.mem_cons] at hs
      rcases hs with rfl | hs
      · rcases List.mem_cons.mp hd with rfl | hd'
        · exact h
        · exact ih a (by rw [hA]; exact List.mem_cons_self a as) d hd'
      · exact ih s (by rw [hA]; exact List.mem_cons_of_mem a hs) d hd

theorem mem_splitAny_subset (p : Char → Bool) (l : List Char) :
    ∀ s ∈ splitAny p l, ∀ c ∈ s, c ∈ l := by
  induction l with
  | nil =>
    intro s hs c hc
    simp [splitAny] at hs
    subst hs
    simp at hc
  | cons c cs ih =>
    intro s hs d hd
    cases h : p c with
    | true =>
      simp [splitAny, h] at hs
      rcases hs with rfl | hs
      · simp at hd
      · exact List.mem_cons_of_mem c (ih s hs d hd)
    | false =>
      simp only [splitAny, h, Bool.false_eq_true, if_false] at hs
      obtain ⟨a, as, hA⟩ := List.exists_cons_of_ne_nil (splitAny_ne_nil p cs)
      rw [hA] at hs
      simp only [consHead, List.mem_cons] at hs
      rcases hs with rfl | hs
      · rcases List.mem_cons.mp hd with rfl | hd'
        · exact List.mem_cons_self d cs
        · exact List.mem_cons_of_mem c
            (ih a (by rw [hA]; exact List.mem_cons_self a as) d hd')
      · exact List.mem_cons_of_mem c
          (ih s (by rw [hA]; exact List.mem_cons_of_mem a hs) d hd)

theorem splitAny_no_delim (p : Char → Bool) (l : List Char)
    (h : ∀ c ∈ l, p c = false) : splitAny p l = [l] := by
  induction l with
  | nil => simp [splitAny]
  | cons c cs ih =>
    have hc := h c (List.mem_cons_self c cs)
    simp [splitAny, hc, ih (fun d hd => h d (List.mem_cons_of_mem c hd)), consHead]

theorem splitAny_append_left (p : Char → Bool) (w l : List Char)
    (hw : ∀ c ∈ w, p c = false) :
    splitAny p (w ++ l) = (w ++ (splitAny p l).headD []) :: (splitAny p l).tail := by
  induction w with
  | nil =>
    obtain ⟨a, t, hx⟩ := List.exists_cons_of_ne_nil (splitAny_ne_nil p l)
    simp [hx]
  | cons c w' ih =>
    have hc := hw c (List.mem_cons_self c w')
    simp [splitAny, hc, ih (fun d hd => hw d (List.mem_cons_of_mem c hd)), consHead]

theorem splitAny_append_cons (p : Char → Bool) (a : List Char) (d : Char) (x : List Char)
    (ha : ∀ c ∈ a, p c = false) (hd : p d = true) :
    splitAny p (a ++ d :: x) = a :: splitAny p x := by
  rw [splitAny_append_left p a (d :: x) ha]
  simp [splitAny, hd]

theorem splitAny_append_right (p : Char → Bool) (l w : List Char)
    (hw : ∀ c ∈ w, p c = false) :
    splitAny p (l ++ w) =
      (splitAny p l).dropLast ++ [(splitAny p l).getLastD [] ++ w] := by
  induction l with
  | nil => simp [splitAny, splitAny_no_delim p w hw]
  | cons c cs ih =>
    obtain ⟨a, as, hA⟩ := List.exists_cons_of_ne_nil (splitAny_ne_nil p cs)
    rw [hA] at ih
    cases h : p c with
    | true =>
      simp only [List.cons_append, splitAny, h, if_true, ih, hA]
      cases as <;> simp [List.getLastD, ih]
    | false =>
      simp only [List.cons_append, splitAny, h, Bool.false_eq_true, if_false, ih, hA,
        consHead]
      cases as <;> simp [List.getLastD, ih]

/-! ### Whitespace stripping does not create or destroy `..` segments -/

theorem ws_not_slash (c : Char) (h : isWs c = true) : isFslash c = false := by
  simp only [isWs, Bool.or_eq_true, decide_eq_true_eq] at h
  rcases h with ((((rfl | rfl) | rfl) | rfl) | rfl) | rfl <;> decide

theorem goodSeg_dotdot : goodSeg (S "..") = true := by decide

theorem eq_dot_of_mem_dotdot {d : Char} (hd : d ∈ S "..") : d = '.' := by
  have hS : S ".." = ['.', '.'] := rfl
  rw [hS] at hd
  rcases List.mem_cons.mp hd with rfl | hd2
  · rfl
  · rcases List.mem_cons.mp hd2 with rfl | hd3
    · rfl
    · cases hd3

theorem rdropWhile_append_rtakeWhile (p : Char → Bool) (l : List Char) :
    l.rdropWhile p ++ l.rtakeWhile p = l := by
  show (l.reverse.dropWhile p).reverse ++ (l.reverse.takeWhile p).reverse = l
  rw [← List.reverse_append, List.takeWhile_append_dropWhile, List.reverse_reverse]

theorem mem_fsplit_of_append_ws (l w : List Char)
    (hw : ∀ c ∈ w, isWs c = true)
    (h : S ".." ∈ fsplit isFslash (l ++ w)) : S ".." ∈ fsplit isFslash l := by
  have hw' : ∀ c ∈ w, isFslash c = false := fun c hc => ws_not_slash c (hw c hc)
  rw [fsplit, splitAny_append_right isFslash l w hw', List.filter_append] at h
  rcases List.mem_append.mp h with h1 | h2
  · exact List.mem_filter.mpr
      ⟨List.dropLast_subset _ (List.mem_filter.mp h1).1, goodSeg_dotdot⟩
  · have h2' := (List.mem_filter.mp h2).1
    simp only [List.mem_singleton] at h2'
    cases w with
    | nil =>
      rw [List.append_nil] at h2'
      refine List.mem_filter.mpr ⟨?_, goodSeg_dotdot⟩
      rw [h2']
      obtain ⟨a, t, hx⟩ := List.exists_cons_of_ne_nil (splitAny_ne_nil isFslash l)
      rw [hx]
      exact List.mem_of_mem_getLast? rfl
    | cons d w' =>
      exfalso
      have hd : d ∈ S ".." := by
        rw [h2']
        exact List.mem_append_right _ (List.mem_cons_self d w')
      have hd' : d = '.' := eq_dot_of_mem_dotdot hd
      have hws := hw d (List.mem_cons_self d w')
      rw [hd'] at hws
      exact absurd hws (by decide)

theorem mem_fsplit_of_ws_append (w l : List Char)
    (hw : ∀ c ∈ w, isWs c = true)
    (h : S ".." ∈ fsplit isFslash (w ++ l)) : S ".." ∈ fsplit isFslash l := by
  have hw' : ∀ c ∈ w, isFslash c = false := fun c hc => ws_not_slash c (hw c hc)
  rw [fsplit, splitAny_append_left isFslash w l hw'] at h
  have h' := (List.mem_filter.mp h).1
  rcases List.mem_cons.mp h' with he | ht
  · cases w with
    | nil =>
      rw [List.nil_append] at he
      refine List.mem_filter.mpr ⟨?_, goodSeg_dotdot⟩
      rw [he]
      obtain ⟨a, t, hx⟩ := List.exists_cons_of_ne_nil (splitAny_ne_nil isFslash l)
      rw [hx]
      simp
    | cons d w' =>
      exfalso
      have hd : d ∈ S ".." := by
        rw [he]
        exact List.mem_append_left _ (List.mem_cons_self d w')
      have hd' : d = '.' := eq_dot_of_mem_dotdot hd
      have hws := hw d (List.mem_cons_self d w')
      rw [hd'] at hws
      exact absurd hws (by decide)
  · exact List.mem_filter.mpr ⟨List.tail_subset _ ht, goodSeg_dotdot⟩

theorem mem_fsplit_pyStrip (l : List Char)
    (h : S ".." ∈ fsplit isFslash l) : S ".." ∈ fsplit isFslash (pyStrip l) := by
  have h1 : S ".." ∈ fsplit isFslash (l.dropWhile isWs) := by
    apply mem_fsplit_of_ws_append (l.takeWhile isWs) (l.dropWhile isWs)
      (fun c hc => List.mem_takeWhile_imp hc)
    rw [List.takeWhile_append_dropWhile]
    exact h
  apply mem_fsplit_of_append_ws ((l.dropWhile isWs).rdropWhile isWs)
    ((l.dropWhile isWs).rtakeWhile isWs)
    (fun c hc => List.mem_rtakeWhile_imp hc)
  rw [rdropWhile_append_rtakeWhile]
  exact h1

/-! ### Backslash replacement commutes with stripping and splitting -/

theorem slashify_ws (c : Char) : isWs (slashify c) = isWs c := by
  by_cases h : c = '\\'
  · subst h; decide
  · simp [slashify, h]

theorem isSlash_eq_isFslash_slashify (c : Char) : isSlash c = isFslash (slashify c) := by
  by_cases h : c = '\\'
  · subst h; decide
  · simp [isSlash, isFslash, slashify, h]

theorem rdropWhile_map_slashify (l : List Char) :
    (l.map slashify).rdropWhile isWs = (l.rdropWhile (isWs ∘ slashify)).map slashify := by
  show ((l.map slashify).reverse.dropWhile isWs).reverse = _
  rw [← List.map_reverse, List.dropWhile_map]
  show ((l.reverse.dropWhile (isWs ∘ slashify)).map slashify).reverse =
    ((l.reverse.dropWhile (isWs ∘ slashify)).reverse).map slashify
  rw [List.map_reverse]

theorem pyStrip_map_slashify (l : List Char) :
    pyStrip (l.map slashify) = (pyStrip l).map slashify := by
  have hids : (isWs ∘ slashify) = isWs := funext slashify_ws
  show ((l.map slashify).dropWhile isWs).rdropWhile isWs = _
  rw [List.dropWhile_map, rdropWhile_map_slashify, hids]
  rfl

theorem mem_claimSegs_map (l : List Char)
    (h : S ".." ∈ claimSegs l) : S ".." ∈ fsplit isFslash (l.map slashify) := by
  rw [fsplit, splitAny_map isFslash isSlash slashify isSlash_eq_isFslash_slashify l]
  have hmem := List.mem_filter.mp h
  refine List.mem_filter.mpr ⟨?_, goodSeg_dotdot⟩
  exact List.mem_map.mpr ⟨S "..", hmem.1, by decide⟩

theorem fsplit_tail_of_head_slash (l : List Char) (h : l.head? = some '/') :
    fsplit isFslash l = fsplit isFslash l.tail := by
  cases l with
  | nil => simp at h
  | cons c cs =>
    have hc : c = '/' := by simpa using h
    subst hc
    simp [fsplit, splitAny, isFslash, goodSeg]

theorem mem_normParts_of_mem_fsplit (raw : List Char)
    (h : S ".." ∈ fsplit isFslash ((pyStrip raw).map slashify)) :
    S ".." ∈ normParts raw := by
  unfold normParts pyParts normP2
  dsimp only
  set p1 := (pyStrip raw).map slashify with hp1
  set p2 := if p1.head? = some '/' then p1.tail else p1 with hp2
  have h2 : S ".." ∈ fsplit isFslash p2 := by
    rw [hp2]
    by_cases hh : p1.head? = some '/'
    · rw [if_pos hh, ← fsplit_tail_of_head_slash p1 hh]
      exact h
    · rw [if_neg hh]
      exact h
  by_cases hh2 : p2.head? = some '/'
  · rw [if_pos hh2]
    exact List.mem_filter.mpr ⟨List.mem_cons_of_mem _ h2, goodSeg_dotdot⟩
  · rw [if_neg hh2]
    exact List.mem_filter.mpr ⟨h2, goodSeg_dotdot⟩

/-- C1: every raw path with a `..` segment — splitting on both slash styles
and dropping empty and `.` segments — is rejected by `normalize_path` with
the path-traversal `ValueError`, never normalized. -/
theorem C1_dotdot_segment_always_rejected (raw : List Char) (allow_root : Bool)
    (h : S ".." ∈ claimSegs raw) :
    normalize_path raw allow_root = .error (S "Path traversal not allowed: " ++ raw) := by
  have h2 : S ".." ∈ fsplit isFslash ((pyStrip raw).map slashify) := by
    rw [← pyStrip_map_slashify]
    exact mem_fsplit_pyStrip _ (mem_claimSegs_map raw h)
  have hne : ¬ ((pyStrip raw = [] || pyStrip raw = ['.'] || pyStrip raw = ['/']) = true) := by
    intro hx
    simp only [Bool.or_eq_true, decide_eq_true_eq] at hx
    rcases hx with (h0 | h0) | h0 <;> rw [h0] at h2 <;> revert h2 <;> decide
  have h3 : S ".." ∈ normParts raw := mem_normParts_of_mem_fsplit raw h2
  have hany : (normParts raw).any (fun s => s == S "..") = true :=
    List.any_eq_true.mpr ⟨S "..", h3, by simp⟩
  unfold normalize_path
  rw [if_neg hne, if_pos hany]

/-- Witness for C1 at the spec scenario `documents/../../etc/passwd`. -/
theorem C1_dotdot_segment_always_rejected_witness :
    S ".." ∈ claimSegs (S "documents/../../etc/passwd") ∧
      normalize_path (S "documents/../../etc/passwd") true =
        .error (S "Path traversal not allowed: " ++ S "documents/../../etc/passwd") :=
  ⟨by decide, C1_dotdot_segment_always_rejected (S "documents/../../etc/passwd") true
    (by decide)⟩

/-! ### Facts about `joinSep` and the structure of `normParts` -/

theorem splitAny_joinSep (p : Char → Bool) (d : Char) (parts : List (List Char))
    (hpd : p d = true) (hparts : ∀ s ∈ parts, ∀ c ∈ s, p c = false)
    (hne : parts ≠ []) : splitAny p (joinSep d parts) = parts := by
  induction parts with
  | nil => exact absurd rfl hne
  | cons a rest ih =>
    cases rest with
    | nil => exact splitAny_no_delim p a (hparts a (List.mem_cons_self a []))
    | cons b t =>
      show splitAny p (a ++ d :: joinSep d (b :: t)) = a :: b :: t
      rw [splitAny_append_cons p a d _ (hparts a (List.mem_cons_self _ _)) hpd]
      rw [ih (fun s hs => hparts s (List.mem_cons_of_mem a hs)) (by simp)]

theorem mem_joinSep (d : Char) (parts : List (List Char)) (c : Char)
    (h : c ∈ joinSep d parts) : c = d ∨ ∃ s ∈ parts, c ∈ s := by
  induction parts with
  | nil => simp [joinSep] at h
  | cons a rest ih =>
    cases rest with
    | nil => exact Or.inr ⟨a, List.mem_cons_self a [], h⟩
    | cons b t =>
      have h' : c ∈ a ++ d :: joinSep d (b :: t) := h
      rcases List.mem_append.mp h' with h1 | h2
      · exact Or.inr ⟨a, List.mem_cons_self a _, h1⟩
      · rcases List.mem_cons.mp h2 with rfl | h3
        · exact Or.inl rfl
        · rcases ih h3 with hd | ⟨s, hs, hcs⟩
          · exact Or.inl hd
          · exact Or.inr ⟨s, List.mem_cons_of_mem a hs, hcs⟩

theorem joinSep_head? (d : Char) (a : List Char) (rest : List (List Char)) (ha : a ≠ []) :
    (joinSep d (a :: rest)).head? = a.head? := by
  cases rest with
  | nil => rfl
  | cons b t =>
    show (a ++ d :: joinSep d (b :: t)).head? = a.head?
    cases a with
    | nil => exact absurd rfl ha
    | cons x xs => rfl

theorem joinSep_ne_nil (d : Char) (a : List Char) (rest : List (List Char)) (ha : a ≠ []) :
    joinSep d (a :: rest) ≠ [] := by
  cases rest with
  | nil => exact ha
  | cons b t =>
    show a ++ d :: joinSep d (b :: t) ≠ []
    simp

theorem fsplit_filter_goodSeg (p : Char → Bool) (l : List Char) :
    (fsplit p l).filter goodSeg = fsplit p l :=
  List.filter_eq_self.mpr (fun _ hs => (List.mem_filter.mp hs).2)

theorem goodSeg_pyPathRoot (l : List Char) : goodSeg (pyPathRoot l) = true := by
  unfold pyPathRoot
  split <;> decide

theorem eq_slash_of_mem_pyPathRoot (l : List Char) (c : Char)
    (hc : c ∈ pyPathRoot l) : c = '/' := by
  unfold pyPathRoot at hc
  have h2 : S "//" = ['/', '/'] := rfl
  have h1 : S "/" = ['/'] := rfl
  split at hc
  · rw [h2] at hc
    rcases List.mem_cons.mp hc with rfl | hc2
    · rfl
    · rcases List.mem_cons.mp hc2 with rfl | hc3
      · rfl
      · cases hc3
  · rw [h1] at hc
    rcases List.mem_cons.mp hc with rfl | hc2
    · rfl
    · cases hc2

theorem normParts_eq (raw : List Char) :
    normParts raw =
      if (normP2 raw).head? = some '/' then
        pyPathRoot (normP2 raw) :: fsplit isFslash (normP2 raw)
      else fsplit isFslash (normP2 raw) := by
  unfold normParts pyParts
  by_cases hh : (normP2 raw).head? = some '/'
  · rw [if_pos hh, List.filter_cons_of_pos, fsplit_filter_goodSeg]
    exact goodSeg_pyPathRoot _
  · rw [if_neg hh, fsplit_filter_goodSeg]

theorem slashify_ne_backslash (c : Char) : slashify c ≠ '\\' := by
  unfold slashify
  split
  · decide
  · assumption

theorem mem_normP2_ne_backslash (raw : List Char) : ∀ c ∈ normP2 raw, c ≠ '\\' := by
  intro c hc
  unfold normP2 at hc
  dsimp only at hc
  by_cases hh : ((pyStrip raw).map slashify).head? = some '/'
  · rw [if_pos hh] at hc
    obtain ⟨d, _, rfl⟩ := List.mem_map.mp (List.tail_subset _ hc)
    exact slashify_ne_backslash d
  · rw [if_neg hh] at hc
    obtain ⟨d, _, rfl⟩ := List.mem_map.mp hc
    exact slashify_ne_backslash d

theorem mem_fsplit_chars (p : Char → Bool) (l : List Char) (s : List Char) (c : Char)
    (hs : s ∈ fsplit p l) (hc : c ∈ s) : c ∈ l :=
  mem_splitAny_subset p l s (List.mem_filter.mp hs).1 c hc

theorem mem_fsplit_no_delim (p : Char → Bool) (l : List Char) (s : List Char) (c : Char)
    (hs : s ∈ fsplit p l) (hc : c ∈ s) : p c = false :=
  mem_splitAny_not_delim p l s (List.mem_filter.mp hs).1 c hc

theorem mem_normParts_ne_backslash (raw : List Char) :
    ∀ s ∈ normParts raw, ∀ c ∈ s, c ≠ '\\' := by
  intro s hs c hc
  rw [normParts_eq] at hs
  by_cases hh : (normP2 raw).head? = some '/'
  · rw [if_pos hh] at hs
    rcases List.mem_cons.mp hs with rfl | hs'
    · rw [eq_slash_of_mem_pyPathRoot _ c hc]
      decide
    · exact mem_normP2_ne_backslash raw c (mem_fsplit_chars _ _ _ _ hs' hc)
  · rw [if_neg hh] at hs
    exact mem_normP2_ne_backslash raw c (mem_fsplit_chars _ _ _ _ hs hc)

theorem map_id_of_mem {f : Char → Char} (l : List Char) (h : ∀ c ∈ l, f c = c) :
    l.map f = l := by
  induction l with
  | nil => rfl
  | cons c cs ih =>
    simp only [List.map_cons]
    rw [h c (List.mem_cons_self c cs), ih (fun d hd => h d (List.mem_cons_of_mem c hd))]

theorem normalize_path_ok_cases (raw : List Char) (ar : Bool) (r : List Char)
    (h : normalize_path raw ar = .ok r) :
    r = [] ∨ (normParts raw ≠ [] ∧ r = joinSep '/' (normParts raw) ∧
      (normParts raw).any (fun s => s == S "..") = false) := by
  unfold normalize_path at h
  dsimp only at h
  split_ifs at h with h1 h2 h3 h4
  any_goals cases h
  · exact Or.inl rfl
  · by_cases hp : normParts raw = []
    · left
      rw [hp]
      rfl
    · right
      refine ⟨hp, rfl, ?_⟩
      rw [← Bool.not_eq_true]
      exact h3

/-- C5 counterexample: `normalize_path` accepts `"a /"` and returns `"a "`
(a trailing space before the dropped slash survives), but re-validating
`"a "` strips the space and returns `"a"`, so validation is not idempotent
as claimed. -/
theorem C5_idempotence_counterexample :
    ¬ (∀ p r : List Char, normalize_path p true = .ok r →
        normalize_path r true = .ok r) := by
  intro hall
  have h1 : normalize_path (S "a /") true = .ok (S "a ") := by decide
  have h2 := hall (S "a /") (S "a ") h1
  have h3 : normalize_path (S "a ") true = .ok (S "a") := by decide
  rw [h2] at h3
  exact absurd (Except.ok.inj h3) (by decide)

/-- C5 amended: validation is idempotent on every success whose result has
no leading or trailing whitespace and does not begin with a slash: if
`normalize_path p = ok r`, `r` survives stripping unchanged and does not
start with `'/'`, then `normalize_path r = ok r`. -/
theorem C5_amended_validate_idempotent (p r : List Char)
    (h : normalize_path p true = .ok r)
    (hstrip : pyStrip r = r) (hhead : r.head? ≠ some '/') :
    normalize_path r true = .ok r := by
  rcases normalize_path_ok_cases p true r h with rfl | ⟨hne, hr, hany⟩
  · decide
  · obtain ⟨a, rest, hparts⟩ := List.exists_cons_of_ne_nil hne
    have hgood : ∀ s ∈ normParts p, goodSeg s = true :=
      fun s hs => (List.mem_filter.mp hs).2
    have hanotnil : a ≠ [] := by
      have hga := hgood a (by rw [hparts]; exact List.mem_cons_self _ _)
      intro hanil
      rw [hanil] at hga
      exact absurd hga (by decide)
    have hnoroot : ¬ (normP2 p).head? = some '/' := by
      intro hroot
      have hstruct := normParts_eq p
      rw [if_pos hroot, hparts] at hstruct
      have ha : a = pyPathRoot (normP2 p) := (List.cons.inj hstruct).1
      have hrhead : r.head? = some '/' := by
        rw [hr, hparts, joinSep_head? '/' a rest hanotnil, ha]
        unfold pyPathRoot
        split <;> rfl
      exact hhead hrhead
    have hstruct := normParts_eq p
    rw [if_neg hnoroot] at hstruct
    have hslashfree : ∀ s ∈ normParts p, ∀ c ∈ s, isFslash c = false := by
      intro s hs c hc
      rw [hstruct] at hs
      exact mem_fsplit_no_delim _ _ _ _ hs hc
    have hsplit : splitAny isFslash r = normParts p := by
      rw [hr]
      exact splitAny_joinSep isFslash '/' (normParts p) (by decide) hslashfree hne
    have hrne : r ≠ [] := by
      rw [hr, hparts]
      exact joinSep_ne_nil '/' a rest hanotnil
    have hrnedot : r ≠ ['.'] := by
      intro hrdot
      rw [hrdot] at hsplit
      have hcomp : splitAny isFslash ['.'] = [['.']] := by decide
      rw [hcomp] at hsplit
      have hga := hgood ['.'] (by rw [← hsplit]; exact List.mem_cons_self _ _)
      exact absurd hga (by decide)
    have hrneslash : r ≠ ['/'] := by
      intro hrslash
      rw [hrslash] at hsplit
      have hcomp : splitAny isFslash ['/'] = [[], []] := by decide
      rw [hcomp] at hsplit
      have hga := hgood [] (by rw [← hsplit]; exact List.mem_cons_self _ _)
      exact absurd hga (by decide)
    have hcond : ¬ ((pyStrip r = [] || pyStrip r = ['.'] || pyStrip r = ['/']) = true) := by
      rw [hstrip]
      simp only [Bool.or_eq_true, decide_eq_true_eq]
      rintro ((h0 | h0) | h0)
      exacts [hrne h0, hrnedot h0, hrneslash h0]
    have hmapr : r.map slashify = r := by
      apply map_id_of_mem
      intro c hc
      rcases mem_joinSep '/' (normParts p) c (by rw [← hr]; exact hc) with rfl | ⟨s, hs, hcs⟩
      · decide
      · have hnb := mem_normParts_ne_backslash p s hs c hcs
        unfold slashify
        rw [if_neg hnb]
    have hp2 : normP2 r = r := by
      unfold normP2
      dsimp only
      rw [hstrip, hmapr, if_neg hhead]
    have hparts_r : normParts r = normParts p := by
      rw [normParts_eq r, hp2, if_neg hhead, fsplit, hsplit, List.filter_eq_self.mpr hgood]
    have hany' : ¬ ((normParts r).any (fun s => s == S "..") = true) := by
      rw [hparts_r, hany]
      simp
    unfold normalize_path
    dsimp only
    rw [if_neg hcond, if_neg hany']
    have hjoin : joinSep '/' (normParts r) = r := by
      rw [hparts_r, ← hr]
    rw [hjoin]
    have hempty : (r.isEmpty && !true) = false := by
      simp
    rw [hempty]
    rfl

/-- Witness for the amended C5 at `p = "docs/a"`. -/
theorem C5_amended_validate_idempotent_witness :
    normalize_path (S "docs/a") true = .ok (S "docs/a") ∧
      pyStrip (S "docs/a") = S "docs/a" ∧ (S "docs/a").head? ≠ some '/' ∧
      normalize_path (S "docs/a") true = .ok (S "docs/a") :=
  ⟨by decide, by decide, by decide,
    C5_amended_validate_idempotent (S "docs/a") (S "docs/a") (by decide) (by decide)
      (by decide)⟩

/-! ### Segment structure of accepted results (claim C6) -/

theorem splitAny_all_delim_append (p : Char → Bool) (w x : List Char)
    (h : ∀ c ∈ w, p c = true) :
    splitAny p (w ++ x) = (w.map fun _ => ([] : List Char)) ++ splitAny p x := by
  induction w with
  | nil => rfl
  | cons c w' ih =>
    simp [splitAny, h c (List.mem_cons_self _ _),
      ih (fun d hd => h d (List.mem_cons_of_mem c hd))]

theorem mem_splitAny_root_join (root : List Char) (rest : List (List Char))
    (s : List Char)
    (hroot : ∀ c ∈ root, c = '/')
    (hrest : ∀ t ∈ rest, ∀ c ∈ t, isFslash c = false)
    (hs : s ∈ splitAny isFslash (joinSep '/' (root :: rest))) :
    s = [] ∨ s ∈ rest := by
  have hrootd : ∀ c ∈ root, isFslash c = true := by
    intro c hc
    rw [hroot c hc]
    decide
  cases rest with
  | nil =>
    have hx : splitAny isFslash (joinSep '/' [root]) =
        (root.map fun _ => ([] : List Char)) ++ splitAny isFslash [] := by
      have h0 := splitAny_all_delim_append isFslash root [] hrootd
      rw [List.append_nil] at h0
      exact h0
    rw [hx] at hs
    rcases List.mem_append.mp hs with h1 | h2
    · obtain ⟨c, _, rfl⟩ := List.mem_map.mp h1
      exact Or.inl rfl
    · left
      have : splitAny isFslash [] = [[]] := rfl
      rw [this] at h2
      rcases List.mem_cons.mp h2 with rfl | h3
      · rfl
      · cases h3
  | cons b t =>
    have hx : joinSep '/' (root :: b :: t) = (root ++ ['/']) ++ joinSep '/' (b :: t) := by
      show root ++ '/' :: joinSep '/' (b :: t) = _
      simp
    rw [hx] at hs
    have hw : ∀ c ∈ root ++ ['/'], isFslash c = true := by
      intro c hc
      rcases List.mem_append.mp hc with h1 | h2
      · exact hrootd c h1
      · rcases List.mem_cons.mp h2 with rfl | h3
        · decide
        · cases h3
    rw [splitAny_all_delim_append isFslash _ _ hw] at hs
    rcases List.mem_append.mp hs with h1 | h2
    · obtain ⟨c, _, rfl⟩ := List.mem_map.mp h1
      exact Or.inl rfl
    · rw [splitAny_joinSep isFslash '/' (b :: t) (by decide) hrest (by simp)] at h2
      exact Or.inr h2

theorem beq_slash_comm (c : Char) : ('/' == c) = decide (c = '/') := by
  by_cases h : c = '/'
  · subst h
    decide
  · rw [decide_eq_false h]
    exact beq_eq_false_iff_ne.mpr (fun he => h he.symm)

theorem isPrefixOf_slashslash (l : List Char) :
    (['/', '/'] : List Char).isPrefixOf l =
      (decide (l.head? = some '/') && decide (l.tail.head? = some '/')) := by
  cases l with
  | nil => rfl
  | cons c cs =>
    cases cs with
    | nil =>
      have h0 : (['/', '/'] : List Char).isPrefixOf [c] =
          (('/' == c) && (['/'] : List Char).isPrefixOf []) := rfl
      have h1 : (['/'] : List Char).isPrefixOf ([] : List Char) = false := rfl
      rw [h0, h1]
      simp
    | cons d ds =>
      have h0 : (['/', '/'] : List Char).isPrefixOf (c :: d :: ds) =
          (('/' == c) && (['/'] : List Char).isPrefixOf (d :: ds)) := rfl
      have h1 : (['/'] : List Char).isPrefixOf (d :: ds) =
          (('/' == d) && ([] : List Char).isPrefixOf ds) := rfl
      rw [h0, h1, List.isPrefixOf_nil_left, beq_slash_comm c, beq_slash_comm d]
      simp

theorem normP2_head_slash_iff (raw : List Char) :
    ((normP2 raw).head? = some '/') ↔
      (S "//").isPrefixOf ((pyStrip raw).map slashify) = true := by
  have hS : S "//" = ['/', '/'] := rfl
  unfold normP2
  dsimp only
  rw [hS, isPrefixOf_slashslash]
  cases hx : (pyStrip raw).map slashify with
  | nil => simp
  | cons c cs =>
    by_cases hc : c = '/'
    · subst hc
      simp
    · rw [if_neg (by simp [hc])]
      simp [hc]

/-- C6 counterexample: `normalize_path` accepts `"//a"` and returns
`"//a"`, which begins with `'/'` (the `PurePosixPath` root component
survives into the output), contradicting the claim that every accepted
result is root-relative with no empty segment. -/
theorem C6_sandbox_shape_counterexample :
    normalize_path (S "//a") true = .ok (S "//a") ∧ (S "//a").head? = some '/' :=
  ⟨by decide, by decide⟩

/-- C6 amended: every accepted result contains no backslash and, split on
`'/'`, has no `".."` segment and no `"."` segment; when additionally the
stripped, backslash-normalized raw path does not begin with two slashes
(so `PurePosixPath` contributes no root component), the result does not
begin with `'/'` and has no empty segment either. -/
theorem C6_amended_sandbox_shape (raw r : List Char)
    (h : normalize_path raw true = .ok r) :
    (∀ c ∈ r, c ≠ '\\') ∧
    S ".." ∉ splitAny isFslash r ∧
    S "." ∉ splitAny isFslash r ∧
    ((S "//").isPrefixOf ((pyStrip raw).map slashify) = false →
      r.head? ≠ some '/' ∧ (r = [] ∨ [] ∉ splitAny isFslash r)) := by
  rcases normalize_path_ok_cases raw true r h with rfl | ⟨hne, hr, hany⟩
  · exact ⟨by simp, by decide, by decide, fun _ => ⟨by decide, Or.inl rfl⟩⟩
  · obtain ⟨a, rest, hparts⟩ := List.exists_cons_of_ne_nil hne
    have hgood : ∀ s ∈ normParts raw, goodSeg s = true :=
      fun s hs => (List.mem_filter.mp hs).2
    have hanotnil : a ≠ [] := by
      have hga := hgood a (by rw [hparts]; exact List.mem_cons_self _ _)
      intro hanil
      rw [hanil] at hga
      exact absurd hga (by decide)
    have hnodd : ∀ s ∈ normParts raw, s ≠ S ".." := by
      intro s hs heq
      have htrue : (normParts raw).any (fun t => t == S "..") = true :=
        List.any_eq_true.mpr ⟨s, hs, by rw [heq]; exact beq_self_eq_true _⟩
      exact absurd htrue (by simp [hany])
    have hnodot : ∀ s ∈ normParts raw, s ≠ S "." := by
      intro s hs heq
      have hg := hgood s hs
      rw [heq] at hg
      exact absurd hg (by decide)
    have hnonil : ∀ s ∈ normParts raw, s ≠ [] := by
      intro s hs heq
      have hg := hgood s hs
      rw [heq] at hg
      exact absurd hg (by decide)
    have hbs : ∀ c ∈ r, c ≠ '\\' := by
      intro c hc
      rcases mem_joinSep '/' (normParts raw) c (by rw [← hr]; exact hc) with rfl | ⟨s, hs, hcs⟩
      · decide
      · exact mem_normParts_ne_backslash raw s hs c hcs
    by_cases hroot : (normP2 raw).head? = some '/'
    · have hstruct := normParts_eq raw
      rw [if_pos hroot] at hstruct
      have hrootchars : ∀ c ∈ pyPathRoot (normP2 raw), c = '/' :=
        fun c hc => eq_slash_of_mem_pyPathRoot _ c hc
      have hrestfree : ∀ t ∈ fsplit isFslash (normP2 raw), ∀ c ∈ t, isFslash c = false :=
        fun t ht c hc => mem_fsplit_no_delim _ _ _ _ ht hc
      refine ⟨hbs, ?_, ?_, ?_⟩
      · intro hmem
        rw [hr, hstruct] at hmem
        rcases mem_splitAny_root_join _ _ _ hrootchars hrestfree hmem with he | hm
        · exact absurd he (by decide)
        · exact hnodd (S "..") (by rw [hstruct]; exact List.mem_cons_of_mem _ hm) rfl
      · intro hmem
        rw [hr, hstruct] at hmem
        rcases mem_splitAny_root_join _ _ _ hrootchars hrestfree hmem with he | hm
        · exact absurd he (by decide)
        · exact hnodot (S ".") (by rw [hstruct]; exact List.mem_cons_of_mem _ hm) rfl
      · intro hpre
        have := (normP2_head_slash_iff raw).mp hroot
        rw [hpre] at this
        exact absurd this (by simp)
    · have hstruct := normParts_eq raw
      rw [if_neg hroot] at hstruct
      have hslashfree : ∀ s ∈ normParts raw, ∀ c ∈ s, isFslash c = false := by
        intro s hs c hc
        rw [hstruct] at hs
        exact mem_fsplit_no_delim _ _ _ _ hs hc
      have hsplit : splitAny isFslash r = normParts raw := by
        rw [hr]
        exact splitAny_joinSep isFslash '/' (normParts raw) (by decide) hslashfree hne
      refine ⟨hbs, ?_, ?_, ?_⟩
      · intro hmem
        rw [hsplit] at hmem
        exact hnodd _ hmem rfl
      · intro hmem
        rw [hsplit] at hmem
        exact hnodot _ hmem rfl
      · intro _
        constructor
        · intro hcontra
          rw [hr, hparts, joinSep_head? '/' a rest hanotnil] at hcontra
          obtain ⟨c, a', rfl⟩ := List.exists_cons_of_ne_nil hanotnil
          have hcslash : c = '/' := by simpa using hcontra
          have hmema : (c :: a') ∈ normParts raw := by
            rw [hparts]
            exact List.mem_cons_self _ _
          have := hslashfree _ hmema c (List.mem_cons_self c a')
          rw [hcslash] at this
          exact absurd this (by decide)
        · right
          intro hmem
          rw [hsplit] at hmem
          exact hnonil _ hmem rfl

/-- Witness for the amended C6 at `raw = "/docs\\a.txt"`. -/
theorem C6_amended_sandbox_shape_witness :
    normalize_path (S "/docs\\a.txt") true = .ok (S "docs/a.txt") ∧
      ((∀ c ∈ S "docs/a.txt", c ≠ '\\') ∧
        S ".." ∉ splitAny isFslash (S "docs/a.txt") ∧
        S "." ∉ splitAny isFslash (S "docs/a.txt") ∧
        ((S "//").isPrefixOf ((pyStrip (S "/docs\\a.txt")).map slashify) = false →
          (S "docs/a.txt").head? ≠ some '/' ∧
            (S "docs/a.txt" = [] ∨ [] ∉ splitAny isFslash (S "docs/a.txt")))) :=
  ⟨by decide, C6_amended_sandbox_shape (S "/docs\\a.txt") (S "docs/a.txt") (by decide)⟩

/-! ### The dispatcher: Python values and result normalization -/

/-- Python values as far as the dispatcher inspects them: `None`,
booleans, integers, strings, lists, and string-keyed dicts (association
lists in insertion order; keys are unique in a Python dict and lookup
takes the first binding). -/
inductive PyVal where
  | none : PyVal
  | bool : Bool → PyVal
  | int : Int → PyVal
  | str : List Char → PyVal
  | list : List PyVal → PyVal
  | dict : List (List Char × PyVal) → PyVal

/-- Python truthiness of the modelled values. -/
def pyTruthy : PyVal → Bool
  | .none => false
  | .bool b => b
  | .int n => n != 0
  | .str s => !s.isEmpty
  | .list xs => !xs.isEmpty
  | .dict xs => !xs.isEmpty

/-- Python `==` between a value and a string literal: only a string with
the same characters compares equal (no cross-type equality among the
modelled values). -/
def pyEqStr : PyVal → List Char → Bool
  | .str s, t => s == t
  | _, _ => false

/-- Model of `d.get(key, default)` on a dict association list. -/
def pyGetD (items : List (List Char × PyVal)) (k : List Char) (dflt : PyVal) : PyVal :=
  match items.find? (fun kv => kv.1 == k) with
  | some kv => kv.2
  | Option.none => dflt

/-- The dispatcher's universal envelope shape (`NormalizedResult`). -/
structure NormRes where
  success : Bool
  data : PyVal
  error : PyVal

/-- The `data` field `_normalize_result` produces for a dict envelope:
on success with a `None` (or absent) `data` entry, the remaining
top-level keys are gathered into a dict; otherwise the raw `data` entry
is kept. -/
def normData (success : Bool) (items : List (List Char × PyVal)) : PyVal :=
  if success then
    match pyGetD items (S "data") .none with
    | .none => PyVal.dict (items.filter
        (fun kv => !(kv.1 == S "success" || kv.1 == S "error")))
    | d => d
  else pyGetD items (S "data") .none

/-- The `error` field `_normalize_result` produces for a dict envelope:
a falsy error on failure is replaced by "Unknown error". -/
def normError (success : Bool) (error0 : PyVal) : PyVal :=
  if !success && !pyTruthy error0 then PyVal.str (S "Unknown error") else error0

/-- Embedding of `ToolMapper._normalize_result`: a dict envelope is
coerced (filling `data` from the remaining keys on success, substituting
"Unknown error" for a falsy error on failure), a bare value is wrapped as
a success. -/
def normalize_result : PyVal → NormRes
  | .dict items =>
    { success := pyTruthy (pyGetD items (S "success") (.bool false))
      data := normData (pyTruthy (pyGetD items (S "success") (.bool false))) items
      error := normError (pyTruthy (pyGetD items (S "success") (.bool false)))
        (pyGetD items (S "error") .none) }
  | v => ⟨true, v, .none⟩

/-- The tool names registered in `ToolMapper.__init__` (`self.tools`). -/
def toolNames : List (List Char) :=
  [S "Browse Files", S "Read File", S "Write File", S "Search Files",
   S "Create Note", S "Update Note", S "Delete Note", S "Pin Note",
   S "Move Note", S "Get Note", S "List Notes", S "Get Scratchpad",
   S "Update Scratchpad", S "Clear Scratchpad", S "Save Website",
   S "Delete Website", S "Pin Website", S "Archive Website",
   S "Read Website", S "List Websites", S "Set UI Theme"]

/-- What the awaited executor call does: raise, or return a value. -/
inductive ExecOutcome where
  | raises : List Char → ExecOutcome
  | returns : PyVal → ExecOutcome

/-- Oracle for the external effects of one dispatch: the path validator
(may raise), the argument builder (may raise), and the skill executor. -/
structure DispatchEnv where
  pathValidation : Except (List Char) Unit
  argBuild : Except (List Char) Unit
  execResult : ExecOutcome

/-- Embedding of `ToolMapper.execute_tool`.  The second component records
whether the skill executor was invoked.  Every raised exception along the
way is caught and converted through `_normalize_result`, exactly as the
`try/except` in the source does. -/
def execute_tool (name : List Char) (theme : PyVal) (env : DispatchEnv) :
    NormRes × Bool :=
  if !(toolNames.contains name) then
    (normalize_result (.dict [(S "success", .bool false),
      (S "error", .str (S "Unknown tool: " ++ name))]), false)
  else if name = S "Set UI Theme" then
    if pyEqStr theme (S "light") || pyEqStr theme (S "dark") then
      (normalize_result (.dict [(S "success", .bool true),
        (S "data", .dict [(S "theme", theme)])]), false)
    else
      (normalize_result (.dict [(S "success", .bool false),
        (S "error", .str (S "Invalid theme"))]), false)
  else
    match env.pathValidation with
    | .error e =>
      (normalize_result (.dict [(S "success", .bool false), (S "error", .str e)]), false)
    | .ok _ =>
      match env.argBuild with
      | .error e =>
        (normalize_result (.dict [(S "success", .bool false), (S "error", .str e)]),
          false)
      | .ok _ =>
        match env.execResult with
        | .raises e =>
          (normalize_result (.dict [(S "success", .bool false), (S "error", .str e)]),
            true)
        | .returns v => (normalize_result v, true)

example : normalize_result (.str (S "hello")) = ⟨true, .str (S "hello"), .none⟩ := rfl

example : normalize_result (.dict [(S "success", .bool false)]) =
    ⟨false, .none, .str (S "Unknown error")⟩ := rfl

example : normalize_result (.dict [(S "success", .bool true), (S "rows", .int 3)]) =
    ⟨true, .dict [(S "rows", .int 3)], .none⟩ := rfl

/-- C7: dispatching a tool name that is not in the capability registry
returns exactly the failed envelope with `data` null and error
`"Unknown tool: <name>"`, and the skill executor is not invoked. -/
theorem C7_unknown_tool_envelope (name : List Char) (theme : PyVal) (env : DispatchEnv)
    (h : toolNames.contains name = false) :
    execute_tool name theme env =
      (⟨false, .none, .str (S "Unknown tool: " ++ name)⟩, false) := by
  unfold execute_tool
  rw [h]
  rfl

/-- Witness for C7 at the spec scenario `dispatch("Unknown Tool", {})`. -/
theorem C7_unknown_tool_envelope_witness :
    toolNames.contains (S "Unknown Tool") = false ∧
      execute_tool (S "Unknown Tool") .none ⟨.ok (), .ok (), .returns .none⟩ =
        (⟨false, .none, .str (S "Unknown tool: Unknown Tool")⟩, false) := by
  refine ⟨by decide, ?_⟩
  rw [C7_unknown_tool_envelope (S "Unknown Tool") .none ⟨.ok (), .ok (), .returns .none⟩
    (by decide)]
  rfl

/-- C2 counterexample: a capability output of
`{"success": True, "error": "boom"}` is passed through by the dispatcher
as an envelope with `success = true` and a non-null `error`, so the
claimed invariant fails for this dispatch outcome. -/
theorem C2_envelope_invariant_counterexample :
    ((execute_tool (S "Read File") .none
        ⟨.ok (), .ok (),
          .returns (.dict [(S "success", .bool true),
            (S "error", .str (S "boom"))])⟩).1.success = true) ∧
      ((execute_tool (S "Read File") .none
        ⟨.ok (), .ok (),
          .returns (.dict [(S "success", .bool true),
            (S "error", .str (S "boom"))])⟩).1.error ≠ .none) :=
  ⟨rfl, fun hcontra => by
    have hval : (execute_tool (S "Read File") .none
        ⟨.ok (), .ok (),
          .returns (.dict [(S "success", .bool true),
            (S "error", .str (S "boom"))])⟩).1.error = .str (S "boom") := rfl
    rw [hval] at hcontra
    exact PyVal.noConfusion hcontra⟩

theorem normError_truthy_of_failure (e0 : PyVal) :
    pyTruthy (normError false e0) = true := by
  unfold normError
  cases he : pyTruthy e0 with
  | true =>
    simp only [he, Bool.not_true, Bool.not_false, Bool.true_and, Bool.false_eq_true,
      if_false]
  | false =>
    simp only [he, Bool.not_false, Bool.true_and, if_true]
    rfl

theorem normError_of_success (e0 : PyVal) : normError true e0 = e0 := by
  unfold normError
  simp

theorem normalize_result_error_truthy_of_failure (v : PyVal)
    (h : (normalize_result v).success = false) :
    pyTruthy (normalize_result v).error = true := by
  cases v with
  | dict items =>
    have hs : (normalize_result (.dict items)).success =
        pyTruthy (pyGetD items (S "success") (.bool false)) := rfl
    have he : (normalize_result (.dict items)).error =
        normError (pyTruthy (pyGetD items (S "success") (.bool false)))
          (pyGetD items (S "error") .none) := rfl
    rw [he, hs.symm.trans h]
    exact normError_truthy_of_failure _
  | none => exact Bool.noConfusion h
  | bool b => exact Bool.noConfusion h
  | int n => exact Bool.noConfusion h
  | str s => exact Bool.noConfusion h
  | list xs => exact Bool.noConfusion h

theorem normalize_result_error_of_success_dict (items : List (List Char × PyVal))
    (h : (normalize_result (.dict items)).success = true) :
    (normalize_result (.dict items)).error = pyGetD items (S "error") .none := by
  have he : (normalize_result (.dict items)).error =
      normError (pyTruthy (pyGetD items (S "success") (.bool false)))
        (pyGetD items (S "error") .none) := rfl
  have hs : (normalize_result (.dict items)).success =
      pyTruthy (pyGetD items (S "success") (.bool false)) := rfl
  rw [he, hs.symm.trans h]
  exact normError_of_success _

theorem execute_tool_branches (name : List Char) (theme : PyVal) (env : DispatchEnv) :
    (∃ e, (execute_tool name theme env).1 =
        normalize_result (.dict [(S "success", .bool false), (S "error", .str e)])) ∨
    ((execute_tool name theme env).1 =
        normalize_result (.dict [(S "success", .bool true),
          (S "data", .dict [(S "theme", theme)])])) ∨
    (∃ v, env.execResult = .returns v ∧
        (execute_tool name theme env).1 = normalize_result v) := by
  unfold execute_tool
  cases hb : toolNames.contains name with
  | false =>
    exact Or.inl ⟨_, rfl⟩
  | true =>
    simp only [Bool.not_true, Bool.false_eq_true, if_false]
    by_cases hn : name = S "Set UI Theme"
    · rw [if_pos hn]
      cases hth : pyEqStr theme (S "light") || pyEqStr theme (S "dark") with
      | true =>
        rw [if_pos rfl]
        exact Or.inr (Or.inl rfl)
      | false =>
        rw [if_neg Bool.false_ne_true]
        exact Or.inl ⟨_, rfl⟩
    · rw [if_neg hn]
      rcases env with ⟨pv, ab, er⟩
      cases pv with
      | error e => exact Or.inl ⟨e, rfl⟩
      | ok u =>
        cases ab with
        | error e => exact Or.inl ⟨e, rfl⟩
        | ok u2 =>
          cases er with
          | raises e => exact Or.inl ⟨e, rfl⟩
          | returns v => exact Or.inr (Or.inr ⟨v, rfl, rfl⟩)

/-- C2 amended: every envelope `execute_tool` produces has a truthy
(hence non-null) `error` whenever `success` is false; when `success` is
true the `error` is null, except that a dict envelope returned by the
executor with truthy `success` has its own `error` value passed through
unchanged (so a capability can hand the agent `success: true` together
with a non-null `error`). -/
theorem C2_amended_envelope_invariant (name : List Char) (theme : PyVal)
    (env : DispatchEnv) :
    ((execute_tool name theme env).1.success = false →
        pyTruthy (execute_tool name theme env).1.error = true) ∧
    ((execute_tool name theme env).1.success = true →
        (execute_tool name theme env).1.error = .none ∨
          ∃ items, env.execResult = .returns (.dict items) ∧
            (execute_tool name theme env).1.error = pyGetD items (S "error") .none) := by
  rcases execute_tool_branches name theme env with ⟨e, hE⟩ | hE | ⟨v, hv, hE⟩
  · constructor
    · intro _
      rw [hE]
      exact normalize_result_error_truthy_of_failure _ rfl
    · intro hcontra
      rw [hE] at hcontra
      exact Bool.noConfusion hcontra
  · constructor
    · intro hfail
      rw [hE] at hfail
      exact Bool.noConfusion hfail
    · intro _
      left
      rw [hE]
      rfl
  · constructor
    · intro hfail
      rw [hE] at hfail
      rw [hE]
      exact normalize_result_error_truthy_of_failure v hfail
    · intro hsucc
      rw [hE] at hsucc
      cases v with
      | dict items =>
        right
        exact ⟨items, hv, by
          rw [hE]
          exact normalize_result_error_of_success_dict items hsucc⟩
      | none =>
        left
        rw [hE]
        rfl
      | bool b =>
        left
        rw [hE]
        rfl
      | int n =>
        left
        rw [hE]
        rfl
      | str s =>
        left
        rw [hE]
        rfl
      | list xs =>
        left
        rw [hE]
        rfl

/-- Witness for the amended C2 at a dispatch whose executor fails. -/
theorem C2_amended_envelope_invariant_witness :
    ((execute_tool (S "Read File") .none
        ⟨.ok (), .ok (), .raises (S "boom")⟩).1.success = false →
      pyTruthy (execute_tool (S "Read File") .none
        ⟨.ok (), .ok (), .raises (S "boom")⟩).1.error = true) ∧
    ((execute_tool (S "Read File") .none
        ⟨.ok (), .ok (), .raises (S "boom")⟩).1.success = true →
      (execute_tool (S "Read File") .none
        ⟨.ok (), .ok (), .raises (S "boom")⟩).1.error = .none ∨
        ∃ items, (DispatchEnv.mk (.ok ()) (.ok ())
            (.raises (S "boom"))).execResult = .returns (.dict items) ∧
          (execute_tool (S "Read File") .none
            ⟨.ok (), .ok (), .raises (S "boom")⟩).1.error =
              pyGetD items (S "error") .none) :=
  C2_amended_envelope_invariant (S "Read File") .none ⟨.ok (), .ok (), .raises (S "boom")⟩

/-! ### The memory tool handler -/

/-- UTF-8 byte length of one unicode scalar value, as
`len(s.encode("utf-8"))` counts it. -/
def utf8Bytes (c : Char) : Nat :=
  if c.toNat < 0x80 then 1
  else if c.toNat < 0x800 then 2
  else if c.toNat < 0x10000 then 3
  else 4

/-- UTF-8 byte length of a string. -/
def utf8Len (s : List Char) : Nat :=
  (s.map utf8Bytes).sum

/-- Python substring containment, `pat in hay`. -/
def hasSub (pat : List Char) : List Char → Bool
  | [] => pat.isEmpty
  | c :: cs => pat.isPrefixOf (c :: cs) || hasSub pat cs

/-- Python `hay.count(pat)` for a non-empty pattern `p :: ps`:
non-overlapping occurrences scanning left to right.  The first argument
is fuel; every step consumes at least one character of the list, so fuel
equal to the length of the haystack (as `countOcc` passes) never runs
out, and the structural recursion computes under the kernel. -/
def countOccGo (p : Char) (ps : List Char) : Nat → List Char → Nat
  | _, [] => 0
  | 0, _ :: _ => 0
  | fuel + 1, c :: cs =>
    if (p :: ps).isPrefixOf (c :: cs) then 1 + countOccGo p ps fuel (cs.drop ps.length)
    else countOccGo p ps fuel cs

/-- Python `hay.count(pat)`; for the empty pattern it is `len(hay) + 1`. -/
def countOcc (hay pat : List Char) : Nat :=
  match pat with
  | [] => hay.length + 1
  | p :: ps => countOccGo p ps hay.length hay

/-- Python `hay.replace(old, new)` for a non-empty `old = p :: ps`, with
fuel as in `countOccGo`. -/
def pyReplaceGo (p : Char) (ps new : List Char) : Nat → List Char → List Char
  | _, [] => []
  | 0, l => l
  | fuel + 1, c :: cs =>
    if (p :: ps).isPrefixOf (c :: cs) then
      new ++ pyReplaceGo p ps new fuel (cs.drop ps.length)
    else c :: pyReplaceGo p ps new fuel cs

/-- Python `hay.replace(old, new)`; replacing the empty string inserts
`new` at every boundary. -/
def pyReplace (hay old new : List Char) : List Char :=
  match old with
  | [] => new ++ hay.flatMap (fun c => c :: new)
  | p :: ps => pyReplaceGo p ps new hay.length hay

example : countOcc (S "likes: tea") (S "tea") = 1 := by decide

example : pyReplace (S "likes: tea") (S "tea") (S "coffee") = S "likes: coffee" := by decide

example : countOcc (S "aaa") (S "aa") = 1 := by decide

example : countOcc (S "abc") (S "") = 4 := by decide

/-- A stored memory record of one user. -/
structure MemRec where
  path : List Char
  content : List Char
  createdAt : Nat
  updatedAt : Nat
deriving DecidableEq

/-- The character class of the memory path pattern: letters, digits,
underscore, slash and dash. -/
def allowedChar (c : Char) : Bool :=
  ('a' ≤ c && c ≤ 'z') || ('A' ≤ c && c ≤ 'Z') || ('0' ≤ c && c ≤ '9') ||
    c = '_' || c = '/' || c = '-'

/-- Full match of the memory path regex (literal `/memories/`, one or
more allowed characters, literal `.md`) against the whole string: the
class contains no dot, so the only possible match puts the literal `.md`
at the very end. -/
def patCore (s : List Char) : Bool :=
  (S "/memories/").isPrefixOf s &&
    (let rest := s.drop 10
     decide (4 ≤ rest.length) && (rest.drop (rest.length - 3) == S ".md") &&
       (rest.take (rest.length - 3)).all allowedChar)

/-- Python `re` semantics of `PATH_PATTERN.match(s)`: the regex is
anchored with `^ ... $`, and `$` matches at the end of the string or just
before one newline at the end of the string. -/
def pathPatternMatch (s : List Char) : Bool :=
  patCore s || (s.getLast? == some '\n' && patCore s.dropLast)

example : pathPatternMatch (S "/memories/pref.md") = true := by decide

example : pathPatternMatch (S "/memories/a.md\n") = true := by decide

example : pathPatternMatch (S "/memories/a.md\n\n") = false := by decide

example : pathPatternMatch (S "/memories/.md") = false := by decide

example : pathPatternMatch (S "/memories/a.txt") = false := by decide

/-- Embedding of `MemoryToolHandler._validate_path`; a raised
`ValueError` is the `.error` case, and the validated string is returned
for convenience.  A payload value that is not a string fails the
`isinstance` check. -/
def validate_path : PyVal → Except (List Char) (List Char)
  | .str s =>
    if 500 < s.length then .error (S "Path too long")
    else if hasSub (S "..") s || hasSub (S "//") s then .error (S "Invalid path")
    else if !(pathPatternMatch s) then .error (S "Invalid path format")
    else .ok s
  | _ => .error (S "Invalid path")

/-- Embedding of `MemoryToolHandler._validate_content`. -/
def validate_content : PyVal → Except (List Char) (List Char)
  | .str s =>
    if 102400 < utf8Len s then .error (S "Content too large")
    else .ok s
  | _ => .error (S "Invalid content")

/-- The path conditions of `_validate_path` as one Boolean. -/
def pathOkB (s : List Char) : Bool :=
  decide (s.length ≤ 500) && !(hasSub (S "..") s) && !(hasSub (S "//") s) &&
    pathPatternMatch s

/-- The content condition of `_validate_content` as one Boolean. -/
def contentOkB (s : List Char) : Bool :=
  decide (utf8Len s ≤ 102400)

theorem pathOkB_iff (s : List Char) :
    pathOkB s = true ↔
      (s.length ≤ 500 ∧ hasSub (S "..") s = false ∧ hasSub (S "//") s = false ∧
        pathPatternMatch s = true) := by
  simp [pathOkB, and_assoc]

theorem contentOkB_iff (s : List Char) :
    contentOkB s = true ↔ utf8Len s ≤ 102400 := by
  simp [contentOkB]

theorem validate_path_ok_iff (s : List Char) :
    validate_path (.str s) = .ok s ↔ pathOkB s = true := by
  rw [pathOkB_iff]
  simp only [validate_path]
  split_ifs with h1 h2 h3
  · constructor
    · intro he
      exact he.elim
    · intro hb
      exact absurd h1 (by omega)
  · constructor
    · intro he
      exact he.elim
    · intro hb
      rw [Bool.or_eq_true] at h2
      rcases h2 with h2 | h2
      · rw [hb.2.1] at h2
        exact Bool.noConfusion h2
      · rw [hb.2.2.1] at h2
        exact Bool.noConfusion h2
  · constructor
    · intro he
      exact he.elim
    · intro hb
      rw [hb.2.2.2] at h3
      exact Bool.noConfusion h3
  · constructor
    · intro _
      rw [Bool.or_eq_true] at h2
      push_neg at h2
      refine ⟨by omega, Bool.eq_false_iff.mpr h2.1, Bool.eq_false_iff.mpr h2.2, ?_⟩
      cases hp : pathPatternMatch s with
      | true => rfl
      | false => exact absurd (by rw [hp]; rfl) h3
    · intro _
      rfl

theorem validate_content_ok_iff (s : List Char) :
    validate_content (.str s) = .ok s ↔ contentOkB s = true := by
  rw [contentOkB_iff]
  simp only [validate_content]
  split_ifs with h1
  · constructor
    · intro he
      exact he.elim
    · intro hb
      exact absurd h1 (by omega)
  · constructor
    · intro _
      omega
    · intro _
      rfl

/-- The `_success` envelope of the memory handler. -/
def okEnv (d : List (List Char × PyVal)) : NormRes :=
  ⟨true, .dict d, .none⟩

/-- The `_error` envelope of the memory handler. -/
def errEnv (m : List Char) : NormRes :=
  ⟨false, .none, .str m⟩

/-- Embedding of `_get_memory`: the record of this user at `path`, if
any (records are kept in insertion order; paths are unique in every
reachable state because `create` and `rename` refuse duplicates). -/
def get_memory (st : List MemRec) (p : List Char) : Option MemRec :=
  st.find? (fun r => r.path == p)

/-- Mutating the record object returned by `_get_memory` and committing:
the first record with the given path is replaced by `f` of it. -/
def updateMem (st : List MemRec) (p : List Char) (f : MemRec → MemRec) : List MemRec :=
  match st with
  | [] => []
  | r :: rs => if r.path == p then f r :: rs else r :: updateMem rs p f

/-- `db.delete` of the record returned by `_get_memory`. -/
def removeMem (st : List MemRec) (p : List Char) : List MemRec :=
  match st with
  | [] => []
  | r :: rs => if r.path == p then rs else r :: removeMem rs p

/-- Embedding of `_merge_text`. -/
def merge_text (first second : List Char) : List Char :=
  if first.isEmpty then second
  else if second.isEmpty then first
  else if first.getLast? == some '\n' || second.head? == some '\n' then first ++ second
  else first ++ '\n' :: second

/-- Embedding of `_handle_view`.  An empty or missing `path` is falsy, so
the command lists all memories (the live service additionally sorts the
listing by path in the database query; no claim depends on that order and
the state is returned unchanged either way). -/
def handle_view (st : List MemRec) (pathV : PyVal) :
    Except (List Char) (NormRes × List MemRec) :=
  if pyTruthy pathV then
    match validate_path pathV with
    | .error e => .error e
    | .ok p =>
      match get_memory st p with
      | Option.none => .ok (errEnv (S "Memory not found"), st)
      | some m =>
        .ok (okEnv [(S "path", .str m.path), (S "content", .str m.content)], st)
  else
    .ok (okEnv [(S "items", .list (st.map (fun m =>
      .dict [(S "path", .str m.path), (S "content", .str m.content)])))], st)

/-- Embedding of `_handle_create`. -/
def handle_create (st : List MemRec) (pathV contentV : PyVal) (now : Nat) :
    Except (List Char) (NormRes × List MemRec) :=
  match validate_path pathV with
  | .error e => .error e
  | .ok p =>
    match validate_content contentV with
    | .error e => .error e
    | .ok c =>
      if (get_memory st p).isSome then
        .ok (errEnv (S "Memory already exists"), st)
      else
        .ok (okEnv [(S "path", .str p), (S "content", .str c)],
          st ++ [⟨p, c, now, now⟩])

/-- Embedding of `_handle_str_replace`. -/
def handle_str_replace (st : List MemRec) (pathV oldV newV : PyVal) (now : Nat) :
    Except (List Char) (NormRes × List MemRec) :=
  match validate_path pathV with
  | .error e => .error e
  | .ok p =>
    match oldV, newV with
    | .str old, .str new =>
      (match get_memory st p with
      | Option.none => .ok (errEnv (S "Memory not found"), st)
      | some m =>
        let occ := countOcc m.content old
        if occ = 0 then .ok (errEnv (S "Old string not found"), st)
        else if 1 < occ then .ok (errEnv (S "Old string is not unique"), st)
        else
          let updated := pyReplace m.content old new
          match validate_content (.str updated) with
          | .error e => .error e
          | .ok _ =>
            .ok (okEnv [(S "path", .str p), (S "content", .str updated)],
              updateMem st p (fun r => { r with content := updated, updatedAt := now })))
    | _, _ => .ok (errEnv (S "Invalid replace parameters"), st)

/-- Embedding of `_handle_insert`. -/
def handle_insert (st : List MemRec) (pathV contentV posV : PyVal) (now : Nat) :
    Except (List Char) (NormRes × List MemRec) :=
  match validate_path pathV with
  | .error e => .error e
  | .ok p =>
    match validate_content contentV with
    | .error e => .error e
    | .ok c =>
      if !(pyEqStr posV (S "start") || pyEqStr posV (S "end")) then
        .ok (errEnv (S "Invalid insert position"), st)
      else
        match get_memory st p with
        | Option.none => .ok (errEnv (S "Memory not found"), st)
        | some m =>
          let updated :=
            if pyEqStr posV (S "start") then merge_text c m.content
            else merge_text m.content c
          match validate_content (.str updated) with
          | .error e => .error e
          | .ok _ =>
            .ok (okEnv [(S "path", .str p), (S "content", .str updated)],
              updateMem st p (fun r => { r with content := updated, updatedAt := now }))

/-- Embedding of `_handle_delete`. -/
def handle_delete (st : List MemRec) (pathV : PyVal) :
    Except (List Char) (NormRes × List MemRec) :=
  match validate_path pathV with
  | .error e => .error e
  | .ok p =>
    match get_memory st p with
    | Option.none => .ok (errEnv (S "Memory not found"), st)
    | some _ => .ok (okEnv [(S "path", .str p)], removeMem st p)

/-- Embedding of `_handle_rename`. -/
def handle_rename (st : List MemRec) (oldV newV : PyVal) (now : Nat) :
    Except (List Char) (NormRes × List MemRec) :=
  match validate_path oldV with
  | .error e => .error e
  | .ok po =>
    match validate_path newV with
    | .error e => .error e
    | .ok pn =>
      match get_memory st po with
      | Option.none => .ok (errEnv (S "Memory not found"), st)
      | some m =>
        if (get_memory st pn).isSome then
          .ok (errEnv (S "Destination already exists"), st)
        else
          .ok (okEnv [(S "path", .str pn), (S "content", .str m.content)],
            updateMem st po (fun r => { r with path := pn, updatedAt := now }))

/-- `(payload.get("command") or "").strip()`: a missing or falsy command
becomes the empty string; a truthy non-string raises `AttributeError` on
`.strip()`. -/
def commandOf (payload : List (List Char × PyVal)) : Except (List Char) (List Char) :=
  match pyGetD payload (S "command") .none with
  | .str s => .ok (pyStrip s)
  | v => if pyTruthy v then .error (S "AttributeError") else .ok []

/-- Python dict assignment `d[k] = v`: replace the binding if the key is
present, else append. -/
def dictSet (d : List (List Char × PyVal)) (k : List Char) (v : PyVal) :
    List (List Char × PyVal) :=
  match d with
  | [] => [(k, v)]
  | (k1, v1) :: rest => if k1 == k then (k, v) :: rest else (k1, v1) :: dictSet rest k v

/-- `result["data"]["command"] = command` on success with dict data. -/
def addCommand (env : NormRes) (cmd : List Char) : NormRes :=
  if env.success then
    match env.data with
    | .dict d => { env with data := .dict (dictSet d (S "command") (.str cmd)) }
    | _ => env
  else env

/-- Embedding of `MemoryToolHandler.execute_command`: route on the
stripped command string; any exception raised inside a handler is caught
and turned into the generic failure envelope with the state unchanged;
on success with dict data the command name is recorded in the data. -/
def execute_command (st : List MemRec) (payload : List (List Char × PyVal)) (now : Nat) :
    NormRes × List MemRec :=
  match commandOf payload with
  | .error _ => (errEnv (S "Memory tool failed"), st)
  | .ok cmd =>
    let r : Except (List Char) (NormRes × List MemRec) :=
      if cmd == S "view" then
        handle_view st (pyGetD payload (S "path") .none)
      else if cmd == S "create" then
        handle_create st (pyGetD payload (S "path") .none)
          (pyGetD payload (S "content") .none) now
      else if cmd == S "str_replace" then
        handle_str_replace st (pyGetD payload (S "path") .none)
          (pyGetD payload (S "old_str") .none) (pyGetD payload (S "new_str") .none) now
      else if cmd == S "insert" then
        handle_insert st (pyGetD payload (S "path") .none)
          (pyGetD payload (S "content") .none) (pyGetD payload (S "position") .none) now
      else if cmd == S "delete" then
        handle_delete st (pyGetD payload (S "path") .none)
      else if cmd == S "rename" then
        handle_rename st (pyGetD payload (S "old_path") .none)
          (pyGetD payload (S "new_path") .none) now
      else .ok (errEnv (S "Invalid command"), st)
    match r with
    | .error _ => (errEnv (S "Memory tool failed"), st)
    | .ok (env, st2) => (addCommand env cmd, st2)

/-- A record as the prompt-assembly interface (`buildMemoryBlock`) sees
it. -/
structure MemEntry where
  path : List Char
  content : List Char
deriving DecidableEq

/-- The f-string each record contributes to the memory block. -/
def memory_entry_line (m : MemEntry) : List Char :=
  S "\n[path: " ++ m.path ++ S "]\n" ++ m.content

/-- Embedding of `build_memory_block`: the fixed sentinel for an empty
list, else the header lines extended by one line per record in a loop,
with the closing fence appended, joined by newlines. -/
def build_memory_block (memories : List MemEntry) : List Char :=
  if memories.isEmpty then S "<memory>\nNo stored memories.\n</memory>"
  else
    let lines := memories.foldl (fun acc m => acc ++ [memory_entry_line m])
      [S "<memory>", S "The following entries are persistent user memories:"]
    joinSep '\n' (lines ++ [S "</memory>"])

example : execute_command []
    [(S "command", .str (S "create")), (S "path", .str (S "/memories/pref.md")),
      (S "content", .str (S "likes: tea"))] 1 =
    (⟨true, .dict [(S "path", .str (S "/memories/pref.md")),
        (S "content", .str (S "likes: tea")), (S "command", .str (S "create"))],
      .none⟩,
      [⟨S "/memories/pref.md", S "likes: tea", 1, 1⟩]) := rfl

example : execute_command [⟨S "/memories/pref.md", S "likes: tea", 1, 1⟩]
    [(S "command", .str (S "str_replace")), (S "path", .str (S "/memories/pref.md")),
      (S "old_str", .str (S "tea")), (S "new_str", .str (S "coffee"))] 2 =
    (⟨true, .dict [(S "path", .str (S "/memories/pref.md")),
        (S "content", .str (S "likes: coffee")), (S "command", .str (S "str_replace"))],
      .none⟩,
      [⟨S "/memories/pref.md", S "likes: coffee", 1, 2⟩]) := rfl

example : execute_command []
    [(S "command", .str (S "create")), (S "path", .str (S "bad")),
      (S "content", .str (S "x"))] 1 =
    (⟨false, .none, .str (S "Memory tool failed")⟩, []) := rfl

example : execute_command []
    [(S "command", .str (S "nonsense"))] 1 =
    (⟨false, .none, .str (S "Invalid command")⟩, []) := rfl

theorem foldl_append_map (ms : List MemEntry) (init : List (List Char)) :
    ms.foldl (fun acc m => acc ++ [memory_entry_line m]) init =
      init ++ ms.map memory_entry_line := by
  induction ms generalizing init with
  | nil => simp
  | cons m rest ih =>
    simp only [List.foldl_cons, List.map_cons]
    rw [ih]
    simp

/-- C10: `build_memory_block` is total: the empty list gives the fixed
sentinel, and a non-empty list gives the fenced block whose lines are the
two header lines, then one entry per input record in input order (each
wrapping the content under its path), then the closing fence, joined by
newlines. -/
theorem C10_build_memory_block_total (ms : List MemEntry) :
    build_memory_block [] = S "<memory>\nNo stored memories.\n</memory>" ∧
      (ms ≠ [] → build_memory_block ms =
        joinSep '\n'
          ([S "<memory>", S "The following entries are persistent user memories:"] ++
            ms.map memory_entry_line ++ [S "</memory>"])) := by
  constructor
  · rfl
  · intro hne
    unfold build_memory_block
    rw [if_neg (by simpa using hne)]
    rw [foldl_append_map]

/-- Witness for C10 at a one-record list. -/
theorem C10_build_memory_block_total_witness :
    build_memory_block [] = S "<memory>\nNo stored memories.\n</memory>" ∧
      build_memory_block [⟨S "/memories/a.md", S "hi"⟩] =
        joinSep '\n'
          ([S "<memory>", S "The following entries are persistent user memories:"] ++
            [MemEntry.mk (S "/memories/a.md") (S "hi")].map memory_entry_line ++
            [S "</memory>"]) :=
  ⟨(C10_build_memory_block_total []).1,
    (C10_build_memory_block_total [⟨S "/memories/a.md", S "hi"⟩]).2 (by decide)⟩

theorem validate_path_cases (s : List Char) :
    validate_path (.str s) = .ok s ∨ ∃ e, validate_path (.str s) = .error e := by
  simp only [validate_path]
  split_ifs
  · exact Or.inr ⟨_, rfl⟩
  · exact Or.inr ⟨_, rfl⟩
  · exact Or.inr ⟨_, rfl⟩
  · exact Or.inl rfl

theorem validate_content_cases (s : List Char) :
    validate_content (.str s) = .ok s ∨ ∃ e, validate_content (.str s) = .error e := by
  simp only [validate_content]
  split_ifs
  · exact Or.inr ⟨_, rfl⟩
  · exact Or.inl rfl

theorem validate_path_ok_inv (v : PyVal) (p : List Char)
    (h : validate_path v = .ok p) : v = .str p ∧ pathOkB p = true := by
  cases v with
  | str s =>
    rcases validate_path_cases s with hv | ⟨e, hv⟩
    · rw [hv] at h
      have hsp := Except.ok.inj h
      subst hsp
      exact ⟨rfl, (validate_path_ok_iff s).mp hv⟩
    · rw [hv] at h
      exact Except.noConfusion h
  | none => exact Except.noConfusion h
  | bool b => exact Except.noConfusion h
  | int n => exact Except.noConfusion h
  | list xs => exact Except.noConfusion h
  | dict xs => exact Except.noConfusion h

theorem validate_content_ok_inv (v : PyVal) (c : List Char)
    (h : validate_content v = .ok c) : v = .str c ∧ contentOkB c = true := by
  cases v with
  | str s =>
    rcases validate_content_cases s with hv | ⟨e, hv⟩
    · rw [hv] at h
      have hsp := Except.ok.inj h
      subst hsp
      exact ⟨rfl, (validate_content_ok_iff s).mp hv⟩
    · rw [hv] at h
      exact Except.noConfusion h
  | none => exact Except.noConfusion h
  | bool b => exact Except.noConfusion h
  | int n => exact Except.noConfusion h
  | list xs => exact Except.noConfusion h
  | dict xs => exact Except.noConfusion h

theorem validate_path_err_of_not_ok (p : List Char) (h : pathOkB p = false) :
    ∃ e, validate_path (.str p) = .error e := by
  rcases validate_path_cases p with hv | he
  · rw [(validate_path_ok_iff p).mp hv] at h
    exact Bool.noConfusion h
  · exact he

theorem validate_content_err_of_not_ok (c : List Char) (h : contentOkB c = false) :
    ∃ e, validate_content (.str c) = .error e := by
  rcases validate_content_cases c with hv | he
  · rw [(validate_content_ok_iff c).mp hv] at h
    exact Bool.noConfusion h
  · exact he

theorem execute_command_create (st : List MemRec) (pathV contentV : PyVal) (now : Nat) :
    execute_command st [(S "command", .str (S "create")), (S "path", pathV),
      (S "content", contentV)] now =
      match handle_create st pathV contentV now with
      | .error _ => (errEnv (S "Memory tool failed"), st)
      | .ok (env, st2) => (addCommand env (S "create"), st2) := rfl

/-- C4 counterexample: creating at the invalid path `"bad"` produces the
generic envelope error "Memory tool failed": the `ValueError` message
"Invalid path format" raised by path validation is caught by
`execute_command` and is not surfaced verbatim in the result. -/
theorem C4_create_verbatim_counterexample :
    execute_command [] [(S "command", .str (S "create")), (S "path", .str (S "bad")),
        (S "content", .str (S "x"))] 0 =
      (errEnv (S "Memory tool failed"), []) ∧
    validate_path (.str (S "bad")) = .error (S "Invalid path format") ∧
    S "Memory tool failed" ≠ S "Invalid path format" :=
  ⟨rfl, rfl, by decide⟩

/-- C4 amended: `create` fails with the generic "Memory tool failed"
envelope when the path fails validation or the content is too large (the
specific `ValueError` messages are logged, not surfaced, so these two
failures are not caller-distinguishable); it fails with the verbatim
"Memory already exists" when a record at the path exists; otherwise it
inserts a record whose `createdAt` and `updatedAt` are the same
timestamp. -/
theorem C4_amended_create (st : List MemRec) (p c : List Char) (now : Nat) :
    (pathOkB p = false →
      execute_command st [(S "command", .str (S "create")), (S "path", .str p),
        (S "content", .str c)] now = (errEnv (S "Memory tool failed"), st)) ∧
    (pathOkB p = true → contentOkB c = false →
      execute_command st [(S "command", .str (S "create")), (S "path", .str p),
        (S "content", .str c)] now = (errEnv (S "Memory tool failed"), st)) ∧
    (pathOkB p = true → contentOkB c = true → (get_memory st p).isSome = true →
      execute_command st [(S "command", .str (S "create")), (S "path", .str p),
        (S "content", .str c)] now = (errEnv (S "Memory already exists"), st)) ∧
    (pathOkB p = true → contentOkB c = true → get_memory st p = Option.none →
      execute_command st [(S "command", .str (S "create")), (S "path", .str p),
        (S "content", .str c)] now =
        (⟨true, .dict [(S "path", .str p), (S "content", .str c),
            (S "command", .str (S "create"))], .none⟩,
          st ++ [⟨p, c, now, now⟩])) := by
  refine ⟨?_, ?_, ?_, ?_⟩
  · intro h
    obtain ⟨e, hv⟩ := validate_path_err_of_not_ok p h
    rw [execute_command_create]
    simp only [handle_create, hv]
  · intro h1 h2
    have hv := (validate_path_ok_iff p).mpr h1
    obtain ⟨e, hc⟩ := validate_content_err_of_not_ok c h2
    rw [execute_command_create]
    simp only [handle_create, hv, hc]
  · intro h1 h2 hg
    have hv := (validate_path_ok_iff p).mpr h1
    have hc := (validate_content_ok_iff c).mpr h2
    rw [execute_command_create]
    simp only [handle_create, hv, hc, hg, if_true]
    rfl
  · intro h1 h2 hg
    have hv := (validate_path_ok_iff p).mpr h1
    have hc := (validate_content_ok_iff c).mpr h2
    rw [execute_command_create]
    simp only [handle_create, hv, hc, hg, Option.isSome_none, Bool.false_eq_true,
      if_false]
    rfl

/-- Witness for the amended C4: creating `/memories/pref.md` in the empty
store inserts the record with equal timestamps. -/
theorem C4_amended_create_witness :
    execute_command [] [(S "command", .str (S "create")),
        (S "path", .str (S "/memories/pref.md")),
        (S "content", .str (S "likes: tea"))] 7 =
      (⟨true, .dict [(S "path", .str (S "/memories/pref.md")),
          (S "content", .str (S "likes: tea")),
          (S "command", .str (S "create"))], .none⟩,
        [⟨S "/memories/pref.md", S "likes: tea", 7, 7⟩]) :=
  (C4_amended_create [] (S "/memories/pref.md") (S "likes: tea") 7).2.2.2
    (by decide) (by decide) rfl

theorem execute_command_insert (st : List MemRec) (pathV contentV posV : PyVal)
    (now : Nat) :
    execute_command st [(S "command", .str (S "insert")), (S "path", pathV),
      (S "content", contentV), (S "position", posV)] now =
      match handle_insert st pathV contentV posV now with
      | .error _ => (errEnv (S "Memory tool failed"), st)
      | .ok (env, st2) => (addCommand env (S "insert"), st2) := rfl

/-- `_merge_text` characterized: the two sides are concatenated, with one
newline inserted exactly when both sides are non-empty, the first does
not end with a newline, and the second does not start with one. -/
theorem merge_text_eq (a b : List Char) :
    merge_text a b =
      if a ≠ [] ∧ b ≠ [] ∧ a.getLast? ≠ some '\n' ∧ b.head? ≠ some '\n'
      then a ++ '\n' :: b else a ++ b := by
  unfold merge_text
  by_cases ha : a = []
  · subst ha
    simp
  · rw [if_neg (by simpa using ha)]
    by_cases hb : b = []
    · subst hb
      simp
    · rw [if_neg (by simpa using hb)]
      by_cases hn : (a.getLast? == some '\n' || b.head? == some '\n') = true
      · have hcond : ¬(a ≠ [] ∧ b ≠ [] ∧ a.getLast? ≠ some '\n' ∧
            b.head? ≠ some '\n') := by
          simp only [Bool.or_eq_true, beq_iff_eq] at hn
          rintro ⟨_, _, h3, h4⟩
          rcases hn with hn | hn
          · exact h3 hn
          · exact h4 hn
        rw [if_pos hn, if_neg hcond]
      · have hcond : a ≠ [] ∧ b ≠ [] ∧ a.getLast? ≠ some '\n' ∧
            b.head? ≠ some '\n' := by
          simp only [Bool.or_eq_true, beq_iff_eq] at hn
          push_neg at hn
          exact ⟨ha, hb, hn.1, hn.2⟩
        rw [if_neg hn, if_pos hcond]

/-- C8: for a valid path and valid content, `insert` rejects any position
other than the literals `start`/`end`; with a valid position it fails if
the record is absent; otherwise it concatenates at the requested edge
(`_merge_text` inserting one newline separator exactly when both sides
are non-empty and neither adjoining side already has a newline), and
re-validates the merged size before storing — an oversized merge raises
and is caught as the generic failure with the state unchanged. -/
theorem C8_insert_behaviour (st : List MemRec) (p c : List Char) (posV : PyVal)
    (now : Nat) (hp : pathOkB p = true) (hc : contentOkB c = true) :
    (∀ a b, merge_text a b =
      if a ≠ [] ∧ b ≠ [] ∧ a.getLast? ≠ some '\n' ∧ b.head? ≠ some '\n'
      then a ++ '\n' :: b else a ++ b) ∧
    (pyEqStr posV (S "start") = false → pyEqStr posV (S "end") = false →
      execute_command st [(S "command", .str (S "insert")), (S "path", .str p),
        (S "content", .str c), (S "position", posV)] now =
        (errEnv (S "Invalid insert position"), st)) ∧
    ((pyEqStr posV (S "start") = true ∨ pyEqStr posV (S "end") = true) →
      get_memory st p = Option.none →
      execute_command st [(S "command", .str (S "insert")), (S "path", .str p),
        (S "content", .str c), (S "position", posV)] now =
        (errEnv (S "Memory not found"), st)) ∧
    (∀ m, get_memory st p = some m → pyEqStr posV (S "start") = true →
      (contentOkB (merge_text c m.content) = true →
        execute_command st [(S "command", .str (S "insert")), (S "path", .str p),
          (S "content", .str c), (S "position", posV)] now =
          (⟨true, .dict [(S "path", .str p),
              (S "content", .str (merge_text c m.content)),
              (S "command", .str (S "insert"))], .none⟩,
            updateMem st p (fun r =>
              { r with content := merge_text c m.content, updatedAt := now }))) ∧
      (contentOkB (merge_text c m.content) = false →
        execute_command st [(S "command", .str (S "insert")), (S "path", .str p),
          (S "content", .str c), (S "position", posV)] now =
          (errEnv (S "Memory tool failed"), st))) ∧
    (∀ m, get_memory st p = some m → pyEqStr posV (S "end") = true →
      (contentOkB (merge_text m.content c) = true →
        execute_command st [(S "command", .str (S "insert")), (S "path", .str p),
          (S "content", .str c), (S "position", posV)] now =
          (⟨true, .dict [(S "path", .str p),
              (S "content", .str (merge_text m.content c)),
              (S "command", .str (S "insert"))], .none⟩,
            updateMem st p (fun r =>
              { r with content := merge_text m.content c, updatedAt := now }))) ∧
      (contentOkB (merge_text m.content c) = false →
        execute_command st [(S "command", .str (S "insert")), (S "path", .str p),
          (S "content", .str c), (S "position", posV)] now =
          (errEnv (S "Memory tool failed"), st))) := by
  have hv := (validate_path_ok_iff p).mpr hp
  have hcv := (validate_content_ok_iff c).mpr hc
  refine ⟨merge_text_eq, ?_, ?_, ?_, ?_⟩
  · intro h1 h2
    rw [execute_command_insert]
    simp only [handle_insert, hv, hcv, h1, h2, Bool.or_false, Bool.not_false, if_true]
    rfl
  · intro hpos hg
    rw [execute_command_insert]
    have hor : (pyEqStr posV (S "start") || pyEqStr posV (S "end")) = true := by
      rcases hpos with h | h <;> simp [h]
    simp only [handle_insert, hv, hcv, hor, Bool.not_true, Bool.false_eq_true,
      if_false, hg]
    rfl
  · intro m hm hs
    have hstart : (pyEqStr posV (S "start") || pyEqStr posV (S "end")) = true := by
      simp [hs]
    constructor
    · intro hok
      have hvu := (validate_content_ok_iff _).mpr hok
      rw [execute_command_insert]
      simp only [handle_insert, hv, hcv, hs, Bool.true_or, Bool.not_true,
        Bool.false_eq_true, if_false, hm, if_true, hvu]
      rfl
    · intro hbad
      obtain ⟨e, hvu⟩ := validate_content_err_of_not_ok _ hbad
      rw [execute_command_insert]
      simp only [handle_insert, hv, hcv, hs, Bool.true_or, Bool.not_true,
        Bool.false_eq_true, if_false, hm, if_true, hvu]
  · intro m hm he
    have hend : (pyEqStr posV (S "start") || pyEqStr posV (S "end")) = true := by
      simp [he]
    have hsf : pyEqStr posV (S "start") = false := by
      cases posV with
      | str s =>
        simp only [pyEqStr, beq_iff_eq] at he ⊢
        subst he
        decide
      | none => rfl
      | bool b => rfl
      | int n => rfl
      | list xs => rfl
      | dict xs => rfl
    constructor
    · intro hok
      have hvu := (validate_content_ok_iff _).mpr hok
      rw [execute_command_insert]
      simp only [handle_insert, hv, hcv, hsf, he, Bool.false_or, Bool.not_true,
        Bool.false_eq_true, if_false, hm, hvu]
      rfl
    · intro hbad
      obtain ⟨e, hvu⟩ := validate_content_err_of_not_ok _ hbad
      rw [execute_command_insert]
      simp only [handle_insert, hv, hcv, hsf, he, Bool.false_or, Bool.not_true,
        Bool.false_eq_true, if_false, hm, hvu]

/-- Witness for C8: inserting `"y"` at the end of `/memories/a.md`
containing `"x"` stores `"x\ny"` with one separator. -/
theorem C8_insert_behaviour_witness :
    execute_command [⟨S "/memories/a.md", S "x", 0, 0⟩]
      [(S "command", .str (S "insert")), (S "path", .str (S "/memories/a.md")),
        (S "content", .str (S "y")), (S "position", .str (S "end"))] 1 =
      (⟨true, .dict [(S "path", .str (S "/memories/a.md")),
          (S "content", .str (merge_text (S "x") (S "y"))),
          (S "command", .str (S "insert"))], .none⟩,
        updateMem [⟨S "/memories/a.md", S "x", 0, 0⟩] (S "/memories/a.md")
          (fun r =>
            { r with content := merge_text (S "x") (S "y"), updatedAt := 1 })) :=
  (((C8_insert_behaviour [⟨S "/memories/a.md", S "x", 0, 0⟩] (S "/memories/a.md")
      (S "y") (.str (S "end")) 1 (by decide) (by decide)).2.2.2.2
    ⟨S "/memories/a.md", S "x", 0, 0⟩ rfl (by decide)).1 (by decide))

theorem execute_command_str_replace (st : List MemRec) (pathV oldV newV : PyVal)
    (now : Nat) :
    execute_command st [(S "command", .str (S "str_replace")), (S "path", pathV),
      (S "old_str", oldV), (S "new_str", newV)] now =
      match handle_str_replace st pathV oldV newV now with
      | .error _ => (errEnv (S "Memory tool failed"), st)
      | .ok (env, st2) => (addCommand env (S "str_replace"), st2) := rfl

theorem get_memory_updateMem (st : List MemRec) (p : List Char) (f : MemRec → MemRec)
    (m : MemRec) (h : get_memory st p = some m) (hf : (f m).path = m.path) :
    get_memory (updateMem st p f) p = some (f m) := by
  induction st with
  | nil => exact Option.noConfusion h
  | cons r rs ih =>
    cases hr : r.path == p with
    | true =>
      have hm : m = r := by
        unfold get_memory at h
        rw [@List.find?_cons_of_pos MemRec (fun x => x.path == p) r rs hr] at h
        exact (Option.some.inj h).symm
      subst hm
      unfold updateMem
      rw [if_pos hr]
      unfold get_memory
      rw [@List.find?_cons_of_pos MemRec (fun x => x.path == p) (f m) rs
        (by show ((f m).path == p) = true; rw [hf]; exact hr)]
    | false =>
      have h' : get_memory rs p = some m := by
        unfold get_memory at h
        rw [@List.find?_cons_of_neg MemRec (fun x => x.path == p) r rs
          (by simp [hr])] at h
        exact h
      unfold updateMem
      rw [if_neg (by simp [hr])]
      unfold get_memory
      rw [@List.find?_cons_of_neg MemRec (fun x => x.path == p) r (updateMem rs p f)
        (by simp [hr])]
      exact ih h'

/-- C3: `str_replace` on a valid path fails with "Memory not found" when
the record is absent; on an existing record it counts exact occurrences
of `old` in the content — zero fails with "Old string not found" (so a
repeated call after a successful replacement that removed `old` fails
rather than silently succeeding, as the final conjunct states), more than
one fails with "Old string is not unique", and exactly one replaces it,
re-validates the new content size (an oversized result raises and is
caught as the generic failure, state unchanged), and stores the replaced
content. -/
theorem C3_str_replace_behaviour (st : List MemRec) (p old new : List Char)
    (now now2 : Nat) (hp : pathOkB p = true) :
    (get_memory st p = Option.none →
      execute_command st [(S "command", .str (S "str_replace")), (S "path", .str p),
        (S "old_str", .str old), (S "new_str", .str new)] now =
        (errEnv (S "Memory not found"), st)) ∧
    (∀ m, get_memory st p = some m →
      (countOcc m.content old = 0 →
        execute_command st [(S "command", .str (S "str_replace")), (S "path", .str p),
          (S "old_str", .str old), (S "new_str", .str new)] now =
          (errEnv (S "Old string not found"), st)) ∧
      (1 < countOcc m.content old →
        execute_command st [(S "command", .str (S "str_replace")), (S "path", .str p),
          (S "old_str", .str old), (S "new_str", .str new)] now =
          (errEnv (S "Old string is not unique"), st)) ∧
      (countOcc m.content old = 1 →
        (contentOkB (pyReplace m.content old new) = true →
          execute_command st [(S "command", .str (S "str_replace")),
            (S "path", .str p), (S "old_str", .str old), (S "new_str", .str new)]
            now =
            (⟨true, .dict [(S "path", .str p),
                (S "content", .str (pyReplace m.content old new)),
                (S "command", .str (S "str_replace"))], .none⟩,
              updateMem st p (fun r =>
                { r with
                  content := pyReplace m.content old new
                  updatedAt := now }))) ∧
        (contentOkB (pyReplace m.content old new) = false →
          execute_command st [(S "command", .str (S "str_replace")),
            (S "path", .str p), (S "old_str", .str old), (S "new_str", .str new)]
            now = (errEnv (S "Memory tool failed"), st)))) ∧
    (∀ m, get_memory st p = some m → countOcc m.content old = 1 →
      countOcc (pyReplace m.content old new) old = 0 →
      execute_command
        (updateMem st p (fun r =>
          { r with content := pyReplace m.content old new, updatedAt := now }))
        [(S "command", .str (S "str_replace")), (S "path", .str p),
          (S "old_str", .str old), (S "new_str", .str new)] now2 =
        (errEnv (S "Old string not found"),
          updateMem st p (fun r =>
            { r with
              content := pyReplace m.content old new
              updatedAt := now }))) := by
  have hv := (validate_path_ok_iff p).mpr hp
  refine ⟨?_, ?_, ?_⟩
  · intro hg
    rw [execute_command_str_replace]
    simp only [handle_str_replace, hv, hg]
    rfl
  · intro m hm
    refine ⟨?_, ?_, ?_⟩
    · intro hocc
      rw [execute_command_str_replace]
      simp only [handle_str_replace, hv, hm]
      rw [if_pos hocc]
      rfl
    · intro hocc
      rw [execute_command_str_replace]
      simp only [handle_str_replace, hv, hm]
      rw [if_neg (by omega), if_pos hocc]
      rfl
    · intro hocc
      constructor
      · intro hok
        have hvu := (validate_content_ok_iff _).mpr hok
        rw [execute_command_str_replace]
        simp only [handle_str_replace, hv, hm]
        rw [if_neg (by omega), if_neg (by omega)]
        simp only [hvu]
        rfl
      · intro hbad
        obtain ⟨e, hvu⟩ := validate_content_err_of_not_ok _ hbad
        rw [execute_command_str_replace]
        simp only [handle_str_replace, hv, hm]
        rw [if_neg (by omega), if_neg (by omega)]
        simp only [hvu]
  · intro m hm hocc hzero
    have hm2 := get_memory_updateMem st p
      (fun r => { r with content := pyReplace m.content old new, updatedAt := now })
      m hm rfl
    rw [execute_command_str_replace]
    simp only [handle_str_replace, hv, hm2]
    rw [if_pos hzero]
    rfl

/-- Witness for C3 at the spec scenario: replacing the unique `"tea"` in
`/memories/pref.md`. -/
theorem C3_str_replace_behaviour_witness :
    execute_command [⟨S "/memories/pref.md", S "likes: tea", 1, 1⟩]
      [(S "command", .str (S "str_replace")),
        (S "path", .str (S "/memories/pref.md")),
        (S "old_str", .str (S "tea")), (S "new_str", .str (S "coffee"))] 2 =
      (⟨true, .dict [(S "path", .str (S "/memories/pref.md")),
          (S "content", .str (pyReplace (S "likes: tea") (S "tea") (S "coffee"))),
          (S "command", .str (S "str_replace"))], .none⟩,
        updateMem [⟨S "/memories/pref.md", S "likes: tea", 1, 1⟩]
          (S "/memories/pref.md")
          (fun r =>
            { r with
              content := pyReplace (S "likes: tea") (S "tea") (S "coffee")
              updatedAt := 2 })) :=
  (((C3_str_replace_behaviour [⟨S "/memories/pref.md", S "likes: tea", 1, 1⟩]
      (S "/memories/pref.md") (S "tea") (S "coffee") 2 3 (by decide)).2.1
    ⟨S "/memories/pref.md", S "likes: tea", 1, 1⟩ rfl).2.2 (by decide)).1 (by decide)

/-! ### Reachable memory states and the stored-record invariant -/

theorem mem_updateMem (st : List MemRec) (p : List Char) (f : MemRec → MemRec)
    (r' : MemRec) (h : r' ∈ updateMem st p f) :
    r' ∈ st ∨ ∃ r, r ∈ st ∧ r' = f r := by
  induction st with
  | nil => cases h
  | cons r rs ih =>
    unfold updateMem at h
    split_ifs at h with hr
    · rcases List.mem_cons.mp h with rfl | h2
      · exact Or.inr ⟨r, List.mem_cons_self r rs, rfl⟩
      · exact Or.inl (List.mem_cons_of_mem r h2)
    · rcases List.mem_cons.mp h with rfl | h2
      · exact Or.inl (List.mem_cons_self r' rs)
      · rcases ih h2 with h3 | ⟨r0, hr0, he⟩
        · exact Or.inl (List.mem_cons_of_mem r h3)
        · exact Or.inr ⟨r0, List.mem_cons_of_mem r hr0, he⟩

theorem mem_removeMem (st : List MemRec) (p : List Char) (r' : MemRec)
    (h : r' ∈ removeMem st p) : r' ∈ st := by
  induction st with
  | nil => cases h
  | cons r rs ih =>
    unfold removeMem at h
    split_ifs at h with hr
    · exact List.mem_cons_of_mem r h
    · rcases List.mem_cons.mp h with rfl | h2
      · exact List.mem_cons_self r' rs
      · exact List.mem_cons_of_mem r (ih h2)

theorem handle_view_state (st : List MemRec) (v : PyVal) (env : NormRes)
    (st2 : List MemRec) (h : handle_view st v = .ok (env, st2)) : st2 = st := by
  unfold handle_view at h
  split_ifs at h
  · cases hv : validate_path v with
    | error e =>
      simp only [hv] at h
      exact Except.noConfusion h
    | ok p =>
      simp only [hv] at h
      cases hg : get_memory st p with
      | none =>
        simp only [hg] at h
        exact (congrArg Prod.snd (Except.ok.inj h)).symm
      | some m =>
        simp only [hg] at h
        exact (congrArg Prod.snd (Except.ok.inj h)).symm
  · exact (congrArg Prod.snd (Except.ok.inj h)).symm

theorem handle_create_state (st : List MemRec) (pv cv : PyVal) (now : Nat)
    (env : NormRes) (st2 : List MemRec)
    (h : handle_create st pv cv now = .ok (env, st2)) :
    st2 = st ∨ ∃ p c, pathOkB p = true ∧ contentOkB c = true ∧
      st2 = st ++ [⟨p, c, now, now⟩] := by
  unfold handle_create at h
  cases hv : validate_path pv with
  | error e =>
      simp only [hv] at h
      exact Except.noConfusion h
  | ok p =>
    simp only [hv] at h
    cases hc : validate_content cv with
    | error e =>
      simp only [hc] at h
      exact Except.noConfusion h
    | ok c =>
      simp only [hc] at h
      split_ifs at h with hg
      · exact Or.inl (congrArg Prod.snd (Except.ok.inj h)).symm
      · refine Or.inr ⟨p, c, (validate_path_ok_inv pv p hv).2,
          (validate_content_ok_inv cv c hc).2, ?_⟩
        exact (congrArg Prod.snd (Except.ok.inj h)).symm

theorem handle_str_replace_state (st : List MemRec) (pv ov nv : PyVal) (now : Nat)
    (env : NormRes) (st2 : List MemRec)
    (h : handle_str_replace st pv ov nv now = .ok (env, st2)) :
    st2 = st ∨ ∃ p u, contentOkB u = true ∧
      st2 = updateMem st p (fun r => { r with content := u, updatedAt := now }) := by
  unfold handle_str_replace at h
  cases hv : validate_path pv with
  | error e =>
      simp only [hv] at h
      exact Except.noConfusion h
  | ok p =>
    simp only [hv] at h
    cases ov with
    | str old =>
      cases nv with
      | str new =>
        cases hg : get_memory st p with
        | none =>
          simp only [hg] at h
          exact Or.inl (congrArg Prod.snd (Except.ok.inj h)).symm
        | some m =>
          simp only [hg] at h
          split_ifs at h with h0 h1
          · exact Or.inl (congrArg Prod.snd (Except.ok.inj h)).symm
          · exact Or.inl (congrArg Prod.snd (Except.ok.inj h)).symm
          · cases hu : validate_content (.str (pyReplace m.content old new)) with
            | error e =>
      simp only [hu] at h
      exact Except.noConfusion h
            | ok u =>
              simp only [hu] at h
              refine Or.inr ⟨p, pyReplace m.content old new, ?_, ?_⟩
              · have h1 := (validate_content_ok_inv _ _ hu).1
                have hue : u = pyReplace m.content old new := by
                  simpa using h1.symm
                rw [← hue]
                exact (validate_content_ok_inv _ _ hu).2
              · exact (congrArg Prod.snd (Except.ok.inj h)).symm
      | none => exact Or.inl (congrArg Prod.snd (Except.ok.inj h)).symm
      | bool b => exact Or.inl (congrArg Prod.snd (Except.ok.inj h)).symm
      | int n => exact Or.inl (congrArg Prod.snd (Except.ok.inj h)).symm
      | list xs => exact Or.inl (congrArg Prod.snd (Except.ok.inj h)).symm
      | dict xs => exact Or.inl (congrArg Prod.snd (Except.ok.inj h)).symm
    | none => exact Or.inl (congrArg Prod.snd (Except.ok.inj h)).symm
    | bool b => exact Or.inl (congrArg Prod.snd (Except.ok.inj h)).symm
    | int n => exact Or.inl (congrArg Prod.snd (Except.ok.inj h)).symm
    | list xs => exact Or.inl (congrArg Prod.snd (Except.ok.inj h)).symm
    | dict xs => exact Or.inl (congrArg Prod.snd (Except.ok.inj h)).symm

theorem handle_insert_state (st : List MemRec) (pv cv posv : PyVal) (now : Nat)
    (env : NormRes) (st2 : List MemRec)
    (h : handle_insert st pv cv posv now = .ok (env, st2)) :
    st2 = st ∨ ∃ p u, contentOkB u = true ∧
      st2 = updateMem st p (fun r => { r with content := u, updatedAt := now }) := by
  unfold handle_insert at h
  cases hv : validate_path pv with
  | error e =>
    simp only [hv] at h
    exact Except.noConfusion h
  | ok p =>
    simp only [hv] at h
    cases hc : validate_content cv with
    | error e =>
      simp only [hc] at h
      exact Except.noConfusion h
    | ok c =>
      simp only [hc] at h
      split_ifs at h with hpos hstart
      · exact Or.inl (congrArg Prod.snd (Except.ok.inj h)).symm
      · cases hg : get_memory st p with
        | none =>
          simp only [hg] at h
          exact Or.inl (congrArg Prod.snd (Except.ok.inj h)).symm
        | some m =>
          simp only [hg] at h
          cases hu : validate_content (.str (merge_text c m.content)) with
          | error e =>
            simp only [hu] at h
            exact Except.noConfusion h
          | ok u =>
            simp only [hu] at h
            refine Or.inr ⟨p, merge_text c m.content, ?_, ?_⟩
            · have h1 := (validate_content_ok_inv _ _ hu).1
              have hue : u = merge_text c m.content := by
                simpa using h1.symm
              rw [← hue]
              exact (validate_content_ok_inv _ _ hu).2
            · exact (congrArg Prod.snd (Except.ok.inj h)).symm
      · cases hg : get_memory st p with
        | none =>
          simp only [hg] at h
          exact Or.inl (congrArg Prod.snd (Except.ok.inj h)).symm
        | some m =>
          simp only [hg] at h
          cases hu : validate_content (.str (merge_text m.content c)) with
          | error e =>
            simp only [hu] at h
            exact Except.noConfusion h
          | ok u =>
            simp only [hu] at h
            refine Or.inr ⟨p, merge_text m.content c, ?_, ?_⟩
            · have h1 := (validate_content_ok_inv _ _ hu).1
              have hue : u = merge_text m.content c := by
                simpa using h1.symm
              rw [← hue]
              exact (validate_content_ok_inv _ _ hu).2
            · exact (congrArg Prod.snd (Except.ok.inj h)).symm

theorem handle_delete_state (st : List MemRec) (pv : PyVal)
    (env : NormRes) (st2 : List MemRec)
    (h : handle_delete st pv = .ok (env, st2)) :
    st2 = st ∨ ∃ p, st2 = removeMem st p := by
  unfold handle_delete at h
  cases hv : validate_path pv with
  | error e =>
    simp only [hv] at h
    exact Except.noConfusion h
  | ok p =>
    simp only [hv] at h
    cases hg : get_memory st p with
    | none =>
      simp only [hg] at h
      exact Or.inl (congrArg Prod.snd (Except.ok.inj h)).symm
    | some m =>
      simp only [hg] at h
      exact Or.inr ⟨p, (congrArg Prod.snd (Except.ok.inj h)).symm⟩

theorem handle_rename_state (st : List MemRec) (ov nv : PyVal) (now : Nat)
    (env : NormRes) (st2 : List MemRec)
    (h : handle_rename st ov nv now = .ok (env, st2)) :
    st2 = st ∨ ∃ po pn, pathOkB pn = true ∧
      st2 = updateMem st po (fun r => { r with path := pn, updatedAt := now }) := by
  unfold handle_rename at h
  cases ho : validate_path ov with
  | error e =>
    simp only [ho] at h
    exact Except.noConfusion h
  | ok po =>
    simp only [ho] at h
    cases hn : validate_path nv with
    | error e =>
      simp only [hn] at h
      exact Except.noConfusion h
    | ok pn =>
      simp only [hn] at h
      cases hg : get_memory st po with
      | none =>
        simp only [hg] at h
        exact Or.inl (congrArg Prod.snd (Except.ok.inj h)).symm
      | some m =>
        simp only [hg] at h
        split_ifs at h with hd
        · exact Or.inl (congrArg Prod.snd (Except.ok.inj h)).symm
        · exact Or.inr ⟨po, pn, (validate_path_ok_inv nv pn hn).2,
            (congrArg Prod.snd (Except.ok.inj h)).symm⟩

/-- One step of `execute_command` keeps every stored record's path
accepted by `_validate_path` and its content accepted by
`_validate_content`. -/
theorem execute_command_preserves (st : List MemRec)
    (payload : List (List Char × PyVal)) (now : Nat)
    (hinv : ∀ r ∈ st, pathOkB r.path = true ∧ contentOkB r.content = true) :
    ∀ r ∈ (execute_command st payload now).2,
      pathOkB r.path = true ∧ contentOkB r.content = true := by
  intro r' hr'
  unfold execute_command at hr'
  cases hcmd : commandOf payload with
  | error e =>
    simp only [hcmd] at hr'
    exact hinv r' hr'
  | ok cmd =>
    simp only [hcmd] at hr'
    by_cases h1 : (cmd == S "view") = true
    · rw [if_pos h1] at hr'
      cases hh : handle_view st (pyGetD payload (S "path") PyVal.none) with
      | error e =>
        simp only [hh] at hr'
        exact hinv r' hr'
      | ok pr =>
        obtain ⟨env2, st2⟩ := pr
        simp only [hh] at hr'
        have hm : r' ∈ st2 := hr'
        rw [handle_view_state st _ env2 st2 hh] at hm
        exact hinv r' hm
    · rw [if_neg h1] at hr'
      by_cases h2 : (cmd == S "create") = true
      · rw [if_pos h2] at hr'
        cases hh : handle_create st (pyGetD payload (S "path") PyVal.none)
            (pyGetD payload (S "content") PyVal.none) now with
        | error e =>
          simp only [hh] at hr'
          exact hinv r' hr'
        | ok pr =>
          obtain ⟨env2, st2⟩ := pr
          simp only [hh] at hr'
          have hm : r' ∈ st2 := hr'
          rcases handle_create_state st _ _ now env2 st2 hh with
            hst | ⟨p, c, hpc, hcc, hst⟩
          · rw [hst] at hm
            exact hinv r' hm
          · rw [hst] at hm
            rcases List.mem_append.mp hm with hmem | hmem
            · exact hinv r' hmem
            · have he : r' = ⟨p, c, now, now⟩ := by simpa using hmem
              rw [he]
              exact ⟨hpc, hcc⟩
      · rw [if_neg h2] at hr'
        by_cases h3 : (cmd == S "str_replace") = true
        · rw [if_pos h3] at hr'
          cases hh : handle_str_replace st (pyGetD payload (S "path") PyVal.none)
              (pyGetD payload (S "old_str") PyVal.none)
              (pyGetD payload (S "new_str") PyVal.none) now with
          | error e =>
            simp only [hh] at hr'
            exact hinv r' hr'
          | ok pr =>
            obtain ⟨env2, st2⟩ := pr
            simp only [hh] at hr'
            have hm : r' ∈ st2 := hr'
            rcases handle_str_replace_state st _ _ _ now env2 st2 hh with
              hst | ⟨p, u, hu, hst⟩
            · rw [hst] at hm
              exact hinv r' hm
            · rw [hst] at hm
              rcases mem_updateMem _ _ _ _ hm with hmem | ⟨r0, hr0, he⟩
              · exact hinv r' hmem
              · rw [he]
                exact ⟨(hinv r0 hr0).1, hu⟩
        · rw [if_neg h3] at hr'
          by_cases h4 : (cmd == S "insert") = true
          · rw [if_pos h4] at hr'
            cases hh : handle_insert st (pyGetD payload (S "path") PyVal.none)
                (pyGetD payload (S "content") PyVal.none)
                (pyGetD payload (S "position") PyVal.none) now with
            | error e =>
              simp only [hh] at hr'
              exact hinv r' hr'
            | ok pr =>
              obtain ⟨env2, st2⟩ := pr
              simp only [hh] at hr'
              have hm : r' ∈ st2 := hr'
              rcases handle_insert_state st _ _ _ now env2 st2 hh with
                hst | ⟨p, u, hu, hst⟩
              · rw [hst] at hm
                exact hinv r' hm
              · rw [hst] at hm
                rcases mem_updateMem _ _ _ _ hm with hmem | ⟨r0, hr0, he⟩
                · exact hinv r' hmem
                · rw [he]
                  exact ⟨(hinv r0 hr0).1, hu⟩
          · rw [if_neg h4] at hr'
            by_cases h5 : (cmd == S "delete") = true
            · rw [if_pos h5] at hr'
              cases hh : handle_delete st (pyGetD payload (S "path") PyVal.none) with
              | error e =>
                simp only [hh] at hr'
                exact hinv r' hr'
              | ok pr =>
                obtain ⟨env2, st2⟩ := pr
                simp only [hh] at hr'
                have hm : r' ∈ st2 := hr'
                rcases handle_delete_state st _ env2 st2 hh with hst | ⟨p, hst⟩
                · rw [hst] at hm
                  exact hinv r' hm
                · rw [hst] at hm
                  exact hinv r' (mem_removeMem st p r' hm)
            · rw [if_neg h5] at hr'
              by_cases h6 : (cmd == S "rename") = true
              · rw [if_pos h6] at hr'
                cases hh : handle_rename st (pyGetD payload (S "old_path") PyVal.none)
                    (pyGetD payload (S "new_path") PyVal.none) now with
                | error e =>
                  simp only [hh] at hr'
                  exact hinv r' hr'
                | ok pr =>
                  obtain ⟨env2, st2⟩ := pr
                  simp only [hh] at hr'
                  have hm : r' ∈ st2 := hr'
                  rcases handle_rename_state st _ _ now env2 st2 hh with
                    hst | ⟨po, pn, hpn, hst⟩
                  · rw [hst] at hm
                    exact hinv r' hm
                  · rw [hst] at hm
                    rcases mem_updateMem _ _ _ _ hm with hmem | ⟨r0, hr0, he⟩
                    · exact hinv r' hmem
                    · rw [he]
                      exact ⟨hpn, (hinv r0 hr0).2⟩
              · rw [if_neg h6] at hr'
                exact hinv r' hr'

/-- Memory states reachable from the empty store by any sequence of
memory-tool commands (`execute_command` steps with arbitrary payloads
and timestamps). -/
inductive Reachable : List MemRec → Prop where
  | init : Reachable []
  | step (st : List MemRec) (payload : List (List Char × PyVal)) (now : Nat) :
      Reachable st → Reachable (execute_command st payload now).2

/-- C9 counterexample: the claimed invariant says every reachable
record's path matches the pattern `/memories/<allowed-chars>.md`
(`patCore`, a full match with the body drawn from the allowed character
class and a literal `.md` suffix).  But `create` with path
`"/memories/a.md\n"` succeeds — Python's `re` anchors `$` before a
single trailing newline, so `PATH_PATTERN.match` accepts it — and
stores a record whose path ends in a newline and hence does not match
the pattern itself. -/
theorem C9_invariant_counterexample :
    Reachable [⟨S "/memories/a.md\n", S "x", 0, 0⟩] ∧
      patCore (S "/memories/a.md\n") = false := by
  refine ⟨?_, by decide⟩
  have hstep : (execute_command []
      [(S "command", .str (S "create")),
       (S "path", .str (S "/memories/a.md\n")),
       (S "content", .str (S "x"))] 0).2 =
      [⟨S "/memories/a.md\n", S "x", 0, 0⟩] := rfl
  rw [← hstep]
  exact Reachable.step [] _ 0 Reachable.init

/-- C9 (amended): every record in a state reachable from the empty
store by any sequence of memory commands has a path accepted by
`_validate_path` — at most 500 characters, containing neither `..` nor
`//`, and matching the path pattern up to Python's `$` semantics, which
also admit exactly one trailing newline — and content accepted by
`_validate_content`, i.e. with UTF-8 encoding at most 102400 bytes.
Each mutating command validates the path and re-validates the resulting
content before committing. -/
theorem C9_memory_invariant (st : List MemRec) (h : Reachable st) :
    ∀ r ∈ st, pathOkB r.path = true ∧ contentOkB r.content = true := by
  induction h with
  | init =>
    intro r hr
    cases hr
  | step st payload now _ ih => exact execute_command_preserves st payload now ih

theorem C9_memory_invariant_witness :
    pathOkB (S "/memories/pref.md") = true ∧ contentOkB (S "likes: tea") = true := by
  have hstep : (execute_command []
      [(S "command", .str (S "create")),
       (S "path", .str (S "/memories/pref.md")),
       (S "content", .str (S "likes: tea"))] 1).2 =
      [⟨S "/memories/pref.md", S "likes: tea", 1, 1⟩] := rfl
  have hreach : Reachable [⟨S "/memories/pref.md", S "likes: tea", 1, 1⟩] := by
    rw [← hstep]
    exact Reachable.step [] _ 1 Reachable.init
  exact C9_memory_invariant _ hreach ⟨S "/memories/pref.md", S "likes: tea", 1, 1⟩
    (List.mem_singleton.mpr rfl)
